import Mathlib

/-!
Verification development for the tori-scrape library (`src/parsing.rs`,
`src/utils.rs`).  The Rust code is shallowly embedded: strings are `List Char`,
`Result` is `Except`, machine integers are `Nat`/`Int` with explicit bounds
where overflow matters.  The chrono/chrono-tz calendar types are modelled in
the style chrono itself uses: a `DateTime<Tz>` is a local civil datetime
together with the resolved UTC offset, and comparisons and `with_timezone(&Utc)`
go through the UTC instant (seconds since the Unix epoch, unbounded — chrono's
±262143-year bound on years is not modelled, no claim touches it).  A timezone
is a set of candidate offsets plus an offset-of-instant function, and local
datetimes are resolved exactly the way `TimeZone::from_local_datetime` does:
keep the candidate offsets that are self-consistent, yielding none / a single
instant / two ambiguous instants.  The regex crate's three patterns are
embedded as explicit leftmost-match scanners over `List Char`; `\d` is taken
to be an ASCII digit and `[a-zA-Z]` the ASCII letters (the patterns below are
only applied to such characters), `\s` is the full Unicode White_Space set
that both the regex crate and `str::split_whitespace` use.
-/

deriving instance DecidableEq for Except

namespace Tori

/-! ## Character classes -/

/-- Unicode White_Space set: this is what Rust's `char::is_whitespace` and the
regex crate's `\s` accept. -/
def isWsChar (c : Char) : Bool :=
  let n := c.toNat
  n == 32 || n == 9 || n == 10 || n == 11 || n == 12 || n == 13 ||
  n == 133 || n == 160 || n == 5760 ||
  (decide (8192 ≤ n) && decide (n ≤ 8202)) ||
  n == 8232 || n == 8233 || n == 8239 || n == 8287 || n == 12288

/-- ASCII digit, the `[0-9]` class; `\d` of the patterns below is modelled as
this class (the inputs the library feeds the patterns are ASCII). -/
def isDigitChar (c : Char) : Bool :=
  decide (48 ≤ c.toNat) && decide (c.toNat ≤ 57)

/-- The `[a-zA-Z]` class of the absolute-timestamp pattern. -/
def isAsciiAlpha (c : Char) : Bool :=
  (decide (97 ≤ c.toNat) && decide (c.toNat ≤ 122)) ||
  (decide (65 ≤ c.toNat) && decide (c.toNat ≤ 90))

/-- ASCII lowercasing, modelling `str::to_lowercase` on the inputs at hand
(the month tokens fed to it are ASCII; the Unicode special cases never
produce an ASCII letter that could hit a month-token branch). -/
def toLowerAscii (c : Char) : Char :=
  if 65 ≤ c.toNat ∧ c.toNat ≤ 90 then Char.ofNat (c.toNat + 32) else c

def digitVal (c : Char) : Nat := c.toNat - 48

/-! ## Calendar (proleptic Gregorian, as chrono's NaiveDate) -/

def isLeapYear (y : Int) : Bool :=
  y % 4 == 0 && (y % 100 != 0 || y % 400 == 0)

def daysInMonth (y : Int) (m : Nat) : Nat :=
  match m with
  | 1 => 31
  | 2 => if isLeapYear y then 29 else 28
  | 3 => 31
  | 4 => 30
  | 5 => 31
  | 6 => 30
  | 7 => 31
  | 8 => 31
  | 9 => 30
  | 10 => 31
  | 11 => 30
  | 12 => 31
  | _ => 0

/-- The dates `NaiveDate::from_ymd_opt` accepts. -/
def validDate (y : Int) (m d : Nat) : Prop :=
  1 ≤ m ∧ m ≤ 12 ∧ 1 ≤ d ∧ d ≤ daysInMonth y m

instance (y : Int) (m d : Nat) : Decidable (validDate y m d) :=
  inferInstanceAs (Decidable (1 ≤ m ∧ m ≤ 12 ∧ 1 ≤ d ∧ d ≤ daysInMonth y m))

/-- Days since 1970-01-01 of a civil date (the standard era-based algorithm). -/
def daysFromCivil (y : Int) (m d : Nat) : Int :=
  let yy : Int := if m ≤ 2 then y - 1 else y
  let era : Int := yy.fdiv 400
  let yoe : Nat := (yy - era * 400).toNat
  let mp : Nat := if 3 ≤ m then m - 3 else m + 9
  let doy : Nat := (153 * mp + 2) / 5 + d - 1
  let doe : Nat := yoe * 365 + yoe / 4 - yoe / 100 + doy
  era * 146097 + (doe : Int) - 719468

/-- Civil date of a day number (inverse of `daysFromCivil`); used only to read
the year off a concrete instant inside the Europe/Helsinki offset function. -/
def civilFromDays (z0 : Int) : Int × Nat × Nat :=
  let z := z0 + 719468
  let era : Int := z.fdiv 146097
  let doe : Nat := (z - era * 146097).toNat
  let yoe : Nat := (doe - doe / 1460 + doe / 36524 - doe / 146096) / 365
  let y : Int := (yoe : Int) + era * 400
  let doy : Nat := doe - (365 * yoe + yoe / 4 - yoe / 100)
  let mp : Nat := (5 * doy + 2) / 153
  let d : Nat := doy - (153 * mp + 2) / 5 + 1
  let m : Nat := if mp < 10 then mp + 3 else mp - 9
  (if m ≤ 2 then y + 1 else y, m, d)

/-! ## Zoned datetimes, in chrono's style -/

structure NaiveDate where
  y : Int
  m : Nat
  d : Nat
deriving DecidableEq

structure NaiveDT where
  date : NaiveDate
  tod : Nat
deriving DecidableEq

/-- A chrono-tz style timezone: the candidate UTC offsets (seconds) and the
offset in force at a given UTC instant. -/
structure Timezone where
  offsets : List Int
  offsetOf : Int → Int

/-- The outcome of resolving a local datetime, chrono's `LocalResult`. -/
inductive LocalRes (α : Type) where
  | nores
  | single (z : α)
  | ambiguous (a b : α)
deriving DecidableEq

/-- A `DateTime<Tz>`: the local civil datetime plus the resolved UTC offset
(chrono stores exactly this data; the `Tz` itself is passed alongside). -/
structure ZonedDT where
  naive : NaiveDT
  offset : Int
deriving DecidableEq

/-- Local civil datetime as linear seconds (days from civil times 86400). -/
def linSecs (n : NaiveDT) : Int :=
  daysFromCivil n.date.y n.date.m n.date.d * 86400 + n.tod

/-- UTC instant of a zoned datetime; `with_timezone(&Utc)` and all
comparisons between datetimes go through this value. -/
def instantOf (z : ZonedDT) : Int := linSecs z.naive - z.offset

/-- Resolve a local civil datetime in a timezone, as
`TimeZone::from_local_datetime`: keep the candidate offsets `o` with
`offsetOf (local - o) = o`. -/
def fromLocal (tz : Timezone) (n : NaiveDT) : LocalRes ZonedDT :=
  match tz.offsets.filter (fun o => tz.offsetOf (linSecs n - o) == o) with
  | [] => .nores
  | [o] => .single ⟨n, o⟩
  | o1 :: o2 :: _ => .ambiguous ⟨n, o1⟩ ⟨n, o2⟩

/-- chrono's `LocalResult::single()`. -/
def singleOf : LocalRes ZonedDT → Option ZonedDT
  | .single z => some z
  | _ => none

/-- `TimeZone::with_ymd_and_hms`: build the civil datetime if its components
are valid, then resolve it locally. -/
def withYmdHms (tz : Timezone) (y : Int) (m d hh mi s : Nat) : LocalRes ZonedDT :=
  if validDate y m d ∧ hh ≤ 23 ∧ mi ≤ 59 ∧ s ≤ 59 then
    fromLocal tz ⟨⟨y, m, d⟩, hh * 3600 + mi * 60 + s⟩
  else .nores

/-- `DateTime::<Tz>::with_year`: replace the year of the local civil datetime
(failing on an invalid date such as Feb 29 of a non-leap year), then re-resolve
and require a unique instant, as chrono's `map_local` does. -/
def dtWithYear (tz : Timezone) (z : ZonedDT) (y2 : Int) : Option ZonedDT :=
  if validDate y2 z.naive.date.m z.naive.date.d then
    singleOf (fromLocal tz ⟨⟨y2, z.naive.date.m, z.naive.date.d⟩, z.naive.tod⟩)
  else none

/-- Civil predecessor of a date (`NaiveDate` minus one day). -/
def prevDay (dt : NaiveDate) : NaiveDate :=
  if 2 ≤ dt.d then ⟨dt.y, dt.m, dt.d - 1⟩
  else if 2 ≤ dt.m then ⟨dt.y, dt.m - 1, daysInMonth dt.y (dt.m - 1)⟩
  else ⟨dt.y - 1, 12, 31⟩

/-- `DateTime<Tz> - Days(1)` (chrono `checked_sub_days`): subtract one day
from the local civil datetime and re-resolve, requiring a unique instant.
The Rust operator unwraps; `none` models its panic. -/
def subDays1 (tz : Timezone) (z : ZonedDT) : Option ZonedDT :=
  singleOf (fromLocal tz ⟨prevDay z.naive.date, z.naive.tod⟩)

/-! ## Error types and months (`parsing.rs`) -/

inductive DateParseError where
  | invalidHighlevelStructure (raw : List Char)
  | invalidDay (raw : List Char)
  | invalidTime (raw : List Char)
  | invalidMonth (raw : List Char)
  | invalidRelativeDay (raw : List Char)
  | arithmeticProblem
deriving DecidableEq

inductive Month where
  | january
  | february
  | march
  | april
  | may
  | june
  | july
  | august
  | september
  | october
  | november
  | december
deriving DecidableEq

/-- chrono's `Month::number_from_month`. -/
def numberFromMonth : Month → Nat
  | .january => 1
  | .february => 2
  | .march => 3
  | .april => 4
  | .may => 5
  | .june => 6
  | .july => 7
  | .august => 8
  | .september => 9
  | .october => 10
  | .november => 11
  | .december => 12

/-- Lowercase three-letter Finnish token of each month, the strings of the
`match` in `parse_month_short`. -/
def tokenOfMonth : Month → List Char
  | .january => "tam".data
  | .february => "hel".data
  | .march => "maa".data
  | .april => "huh".data
  | .may => "tou".data
  | .june => "kes".data
  | .july => "hei".data
  | .august => "elo".data
  | .september => "syy".data
  | .october => "lok".data
  | .november => "mar".data
  | .december => "jou".data

def monthTokens : List (List Char) :=
  ["tam".data, "hel".data, "maa".data, "huh".data, "tou".data, "kes".data,
   "hei".data, "elo".data, "syy".data, "lok".data, "mar".data, "jou".data]

/-- `parse_month_short` of `parsing.rs`: lowercase the token, then match it
against the twelve fixed Finnish month tokens. -/
def parse_month_short (l : List Char) : Except DateParseError Month :=
  let low := l.map toLowerAscii
  if low = "tam".data then .ok .january
  else if low = "hel".data then .ok .february
  else if low = "maa".data then .ok .march
  else if low = "huh".data then .ok .april
  else if low = "tou".data then .ok .may
  else if low = "kes".data then .ok .june
  else if low = "hei".data then .ok .july
  else if low = "elo".data then .ok .august
  else if low = "syy".data then .ok .september
  else if low = "lok".data then .ok .october
  else if low = "mar".data then .ok .november
  else if low = "jou".data then .ok .december
  else .error (.invalidMonth l)

/-! ## Token parsers (`parse_hh_mm`, `parse_day`) -/

/-- Up to two digits, at least one, greedily — chrono's numeric scanner with
max width 2 as used by the `%H` and `%M` items. -/
def take2Digits : List Char → Option (Nat × List Char)
  | [] => none
  | a :: r =>
    if isDigitChar a then
      match r with
      | b :: r2 =>
        if isDigitChar b then some (10 * digitVal a + digitVal b, r2)
        else some (digitVal a, b :: r2)
      | [] => some (digitVal a, [])
    else none

/-- `parse_hh_mm`: chrono `NaiveTime::parse_from_str(time, "%H:%M")`.  Numeric
items skip leading whitespace; the `:` literal must match exactly; trailing
input, a missing component, hour ≥ 24 or minute ≥ 60 all fail, and every
failure becomes `InvalidTime(raw)`. -/
def parse_hh_mm (l : List Char) : Except DateParseError (Nat × Nat) :=
  match take2Digits (List.dropWhile isWsChar l) with
  | none => .error (.invalidTime l)
  | some (hh, r1) =>
    match r1 with
    | ':' :: r2 =>
      match take2Digits (List.dropWhile isWsChar r2) with
      | none => .error (.invalidTime l)
      | some (mi, r3) =>
        if r3 = [] then
          if hh ≤ 23 then
            if mi ≤ 59 then .ok (hh, mi) else .error (.invalidTime l)
          else .error (.invalidTime l)
        else .error (.invalidTime l)
    | _ => .error (.invalidTime l)

def digitsToNat (l : List Char) : Nat :=
  l.foldl (fun a c => 10 * a + digitVal c) 0

/-- Rust `str::parse::<u32>`: an optional leading `+`, then one or more ASCII
digits, failing on overflow past `u32::MAX`. -/
def parseU32 (l : List Char) : Option Nat :=
  let l2 := match l with
    | '+' :: r => r
    | _ => l
  if !l2.isEmpty && l2.all isDigitChar then
    if digitsToNat l2 < 4294967296 then some (digitsToNat l2) else none
  else none

/-- `parse_day`: a `u32` in `1..=31`, anything else is `InvalidDay(raw)`. -/
def parse_day (l : List Char) : Except DateParseError Nat :=
  match parseU32 l with
  | some d =>
    if 1 ≤ d then
      if d ≤ 31 then .ok d else .error (.invalidDay l)
    else .error (.invalidDay l)
  | none => .error (.invalidDay l)

/-! ## The three regex patterns as leftmost-match scanners

`REL_TIME`, `ABS_TIME` and `PRICE_PATT` are unanchored; `Regex::captures`
reports the leftmost match.  In each pattern every greedy sub-expression is
followed by a sub-expression whose first character class is disjoint from it
(whitespace vs letters/digits, except the price digit group, handled
explicitly below), so the backtracking search is equivalent to the
deterministic maximal-munch scanners defined here, tried at every start
position from the left. -/

/-- Match a literal character list, returning the remainder. -/
def litM : List Char → List Char → Option (List Char)
  | [], l => some l
  | _ :: _, [] => none
  | c :: cs, x :: xs => if x = c then litM cs xs else none

/-- The `\s+` item: at least one whitespace character, consumed greedily. -/
def wsPlus : List Char → Option (List Char)
  | [] => none
  | c :: r => if isWsChar c then some (List.dropWhile isWsChar r) else none

/-- The `(\d{2}:\d{2})` group: exactly five characters, digits around `:`;
returns the captured five characters and the remainder. -/
def time5 : List Char → Option (List Char × List Char)
  | t1 :: t2 :: c :: t3 :: t4 :: r =>
    if c = ':' ∧ isDigitChar t1 ∧ isDigitChar t2 ∧ isDigitChar t3 ∧ isDigitChar t4 then
      some ([t1, t2, c, t3, t4], r)
    else none
  | _ => none

/-- The `([a-zA-Z]{3})` group: exactly three ASCII letters. -/
def alpha3 : List Char → Option (List Char × List Char)
  | a :: b :: c :: r =>
    if isAsciiAlpha a && isAsciiAlpha b && isAsciiAlpha c then some ([a, b, c], r)
    else none
  | _ => none

/-- First-some choice on options (the regex alternation / scan step). -/
def orElseO {α : Type} : Option α → Option α → Option α
  | some x, _ => some x
  | none, y => y

/-- Everything of `REL_TIME` after the relative-day literal:
`\s+(\d{2}:\d{2})`; `tok` is the matched literal, passed through as the first
capture. -/
def relTail (tok : List Char) (r1 : List Char) : Option (List Char × List Char) :=
  match wsPlus r1 with
  | some r2 =>
    match time5 r2 with
    | some (t5, _) => some (tok, t5)
    | none => none
  | none => none

/-- Attempt `REL_TIME` = `\s*(eilen|tänään)\s+(\d{2}:\d{2})\s*` at one start
position, returning the two captures. -/
def tryRelAt (l : List Char) : Option (List Char × List Char) :=
  let l1 := List.dropWhile isWsChar l
  match litM "eilen".data l1 with
  | some r1 => relTail "eilen".data r1
  | none =>
    match litM "tänään".data l1 with
    | some r1 => relTail "tänään".data r1
    | none => none

/-- Leftmost `REL_TIME` match: `REL_TIME.captures(ts)`. -/
def relFind : List Char → Option (List Char × List Char)
  | [] => none
  | c :: r => orElseO (tryRelAt (c :: r)) (relFind r)

/-- Everything of `ABS_TIME` after the day group: `\s+([a-zA-Z]{3})\s+(\d{2}:\d{2})`. -/
def absTail (day : List Char) (l : List Char) :
    Option (List Char × List Char × List Char) :=
  match wsPlus l with
  | some r1 =>
    match alpha3 r1 with
    | some (mon, r2) =>
      match wsPlus r2 with
      | some r3 =>
        match time5 r3 with
        | some (t5, _) => some (day, mon, t5)
        | none => none
      | none => none
    | none => none
  | none => none

/-- Attempt `ABS_TIME` = `\s*(\d{1,2})\s+([a-zA-Z]{3})\s+(\d{2}:\d{2})\s*` at
one start position.  The greedy `\d{1,2}` prefers two digits and backtracks to
one if the rest of the pattern fails. -/
def tryAbsAt (l : List Char) : Option (List Char × List Char × List Char) :=
  match List.dropWhile isWsChar l with
  | [] => none
  | a :: rest =>
    if isDigitChar a then
      match rest with
      | [] => none
      | b :: r2 =>
        if isDigitChar b then orElseO (absTail [a, b] r2) (absTail [a] rest)
        else absTail [a] rest
    else none

/-- Leftmost `ABS_TIME` match: `ABS_TIME.captures(ts)`. -/
def absFind : List Char → Option (List Char × List Char × List Char)
  | [] => none
  | c :: r => orElseO (tryAbsAt (c :: r)) (absFind r)

/-! ## The date parser (`Parser` of `parsing.rs`)

The Rust `Parser` stores two `DateTime<Tz>` values; each carries its `Tz`.
Here the timezone is passed alongside the parser state. -/

structure Parser where
  userToday : ZonedDT
  userYesterday : ZonedDT
deriving DecidableEq

/-- `Parser::new(fetch_time)`: keeps `fetch_time` and `fetch_time - Days(1)`.
The subtraction panics if the shifted local datetime is not a unique instant;
`none` models that panic. -/
def Parser.new (tz : Timezone) (fetchTime : ZonedDT) : Option Parser :=
  (subDays1 tz fetchTime).map fun yz => ⟨fetchTime, yz⟩

/-- Resolve a local civil datetime to a UTC instant, erroring with
`ArithmeticProblem` unless the resolution is a unique instant — the `match`
both `parse_rel_time` and `parse_abs_time` perform. -/
def localToUtcRes (tz : Timezone) (n : NaiveDT) : Except DateParseError Int :=
  match fromLocal tz n with
  | .single z => .ok (instantOf z)
  | _ => .error .arithmeticProblem

/-- `Parser::parse_rel_time`. -/
def parse_rel_time (tz : Timezone) (p : Parser) (relday hhmm : List Char) :
    Except DateParseError Int :=
  match parse_hh_mm hhmm with
  | .error e => .error e
  | .ok (hh, mi) =>
    if relday = "tänään".data then
      localToUtcRes tz ⟨p.userToday.naive.date, hh * 3600 + mi * 60⟩
    else if relday = "eilen".data then
      localToUtcRes tz ⟨p.userYesterday.naive.date, hh * 3600 + mi * 60⟩
    else .error (.invalidRelativeDay relday)

/-- `Parser::parse_abs_time`: parse the three sub-tokens, build the local
datetime in the anchor's current year, subtract one year when the result lies
strictly after the anchor, and convert to UTC. -/
def parse_abs_time (tz : Timezone) (p : Parser) (day_s mon_s hhmm_s : List Char) :
    Except DateParseError Int :=
  match parse_day day_s with
  | .error e => .error e
  | .ok d =>
    match parse_month_short mon_s with
    | .error e => .error e
    | .ok mo =>
      match parse_hh_mm hhmm_s with
      | .error e => .error e
      | .ok (hh, mi) =>
        match withYmdHms tz p.userToday.naive.date.y (numberFromMonth mo) d hh mi 0 with
        | .single newTs =>
          let yoff : Int := if instantOf p.userToday < instantOf newTs then 1 else 0
          match dtWithYear tz newTs (newTs.naive.date.y - yoff) with
          | some z2 => .ok (instantOf z2)
          | none => .error .arithmeticProblem
        | _ => .error .arithmeticProblem

/-- `Parser::parse_posted_at`: try `REL_TIME` first, then `ABS_TIME`, else
`InvalidHighlevelStructure(raw)`. -/
def parse_posted_at (tz : Timezone) (p : Parser) (ts : List Char) :
    Except DateParseError Int :=
  match relFind ts with
  | some (relday_s, hhmm_s) => parse_rel_time tz p relday_s hhmm_s
  | none =>
    match absFind ts with
    | some (day_s, mon_s, hhmm_s) => parse_abs_time tz p day_s mon_s hhmm_s
    | none => .error (.invalidHighlevelStructure ts)

/-! ## Whitespace normalizer (`utils.rs::reformat_ws`) -/

/-- Fuel-driven core of `splitWs`: the fuel bounds the input length, making
the takeWhile/dropWhile recursion structural. -/
def splitWsF : Nat → List Char → List (List Char)
  | _, [] => []
  | 0, _ :: _ => []
  | fuel + 1, c :: r =>
    if isWsChar c then splitWsF fuel r
    else (c :: List.takeWhile (fun x => !isWsChar x) r)
      :: splitWsF fuel (List.dropWhile (fun x => !isWsChar x) r)

/-- `str::split_whitespace`: the maximal whitespace-free tokens, in order. -/
def splitWs (l : List Char) : List (List Char) := splitWsF l.length l

/-- `Vec::<&str>::join(" ")`. -/
def joinTokens : List (List Char) → List Char
  | [] => []
  | [t] => t
  | t :: ts => t ++ ' ' :: joinTokens ts

/-- `reformat_ws` of `utils.rs`: split on whitespace and re-join with single
spaces. -/
def reformat_ws (l : List Char) : List Char := joinTokens (splitWs l)

/-! ## Price parsing (`price_parse`, pattern `PRICE_PATT`) -/

structure Price where
  value : Int
  unit : List Char
deriving DecidableEq

def isDigitOrWs (c : Char) : Bool := isDigitChar c || isWsChar c

/-- Attempt `PRICE_PATT` = `\s*([0-9][0-9\s]*)\s+(€)\s*` at one start
position, returning the first capture (the digit group, which after
backtracking gives up exactly the final whitespace run's last character to
`\s+`... the group is the maximal digit-or-whitespace run minus its last
character, which must be whitespace, with `€` immediately after the run). -/
def tryPriceAt (l : List Char) : Option (List Char) :=
  match List.dropWhile isWsChar l with
  | [] => none
  | a :: r =>
    if isDigitChar a then
      let run := List.takeWhile isDigitOrWs r
      match List.dropWhile isDigitOrWs r with
      | '€' :: _ =>
        match run.getLast? with
        | some lastc => if isWsChar lastc then some (a :: run.dropLast) else none
        | none => none
      | _ => none
    else none

/-- Leftmost `PRICE_PATT` match: `PRICE_PATT.captures(input)`. -/
def priceFind : List Char → Option (List Char)
  | [] => none
  | c :: r => orElseO (tryPriceAt (c :: r)) (priceFind r)

inductive ItemAttribute where
  | id
  | title
  | href
  | companyAd
  | img
  | postedAt
  | location
  | direction
deriving DecidableEq

inductive ItemParseErrorKind where
  | missingAttribute (a : ItemAttribute)
  | unexpectedValue (a : ItemAttribute) (raw : List Char)
  | invalidPrice (raw : List Char)
  | invalidDate (e : DateParseError)
deriving DecidableEq

/-- `price_parse`: match `PRICE_PATT`, strip the whitespace out of the digit
group (`split_whitespace().collect::<String>()`), and parse it as an `i32`；
the unit capture is always the literal `€`. -/
def price_parse (l : List Char) : Except ItemParseErrorKind Price :=
  match priceFind l with
  | some g1 =>
    let digits := g1.filter (fun c => !isWsChar c)
    if digitsToNat digits ≤ 2147483647 then
      .ok ⟨digitsToNat digits, "€".data⟩
    else .error (.invalidPrice l)
  | none => .error (.invalidPrice l)

/-! ## Item extraction (`Parser::parse_document`) -/

structure ItemParseError where
  item_idx : Nat
  item_id : Option (List Char)
  error : ItemParseErrorKind
deriving DecidableEq

structure Item where
  item_id : List Char
  direction : List Char
  title : List Char
  price : Option Price
  location : List Char
  seller : Option (List Char)
  is_company_ad : Bool
  href : List Char
  thumbnail_url : Option (List Char)
  posted_at_orig : List Char
  posted_at : Int
deriving DecidableEq

/-- One `a[data-row]` node of the document, abstracted to exactly the queries
`parse_document` performs on it: attribute values, the collected text of the
first price node, the `src` of the first image node, the `inner_html` of the
first title and date nodes, and the `inner_html` of every combined
(`div .cat_geo > p`) node in document order. -/
structure ListingNode where
  idAttr : Option (List Char)
  companyAdAttr : Option (List Char)
  hrefAttr : Option (List Char)
  priceText : Option (List Char)
  thumbSrc : Option (List Char)
  titleHtml : Option (List Char)
  postedAtHtml : Option (List Char)
  combinedHtmls : List (List Char)
deriving DecidableEq

/-- The parsed document: the `a[data-row]` listing nodes in document order. -/
structure HtmlDoc where
  rows : List ListingNode
deriving DecidableEq

def trimChars (l : List Char) : List Char :=
  ((l.dropWhile isWsChar).reverse.dropWhile isWsChar).reverse

/-- Extraction of `item_id` from the `id` attribute: missing attribute or a
value without the `item_` tag in front is an error; otherwise the tag is
stripped. -/
def extractId (el : ListingNode) : Except ItemParseErrorKind (List Char) :=
  match el.idAttr with
  | none => .error (.missingAttribute .id)
  | some raw =>
    if raw.take 5 = "item_".data then .ok (raw.drop 5)
    else .error (.unexpectedValue .id raw)

/-- The `let price = { ... }` block of `parse_document`: the first price
node's collected text, if present and non-empty, is parsed; absent or empty
text yields `None` without error. -/
def price_step (el : ListingNode) : Except ItemParseErrorKind (Option Price) :=
  let priceMaybe := match el.priceText with
    | none => none
    | some s => if s.isEmpty then none else some s
  match priceMaybe with
  | none => .ok none
  | some ps =>
    match price_parse ps with
    | .ok pr => .ok (some pr)
    | .error k => .error k

/-- Every field after `item_id`, in the order `parse_document` reads them;
the first failure aborts.  Returns (is_company_ad, href, price, thumbnail,
title, posted_at_orig, posted_at, location, direction, seller). -/
def extractRest (tz : Timezone) (p : Parser) (el : ListingNode) :
    Except ItemParseErrorKind
      (Bool × List Char × Option Price × Option (List Char) × List Char ×
        List Char × Int × List Char × List Char × Option (List Char)) :=
  match el.companyAdAttr with
  | none => .error (.missingAttribute .companyAd)
  | some s =>
    match (if s = "0".data then some false
           else if s = "1".data then some true else none) with
    | none => .error (.unexpectedValue .companyAd s)
    | some isCompany =>
      match el.hrefAttr with
      | none => .error (.missingAttribute .href)
      | some href =>
        match price_step el with
        | .error k => .error k
        | .ok price =>
          let thumb := el.thumbSrc
          match el.titleHtml with
          | none => .error (.missingAttribute .title)
          | some th =>
            let title := trimChars th
            match el.postedAtHtml with
            | none => .error (.missingAttribute .postedAt)
            | some ph =>
              let postedOrig := reformat_ws ph
              match parse_posted_at tz p postedOrig with
              | .error e => .error (.invalidDate e)
              | .ok postedAt =>
                match el.combinedHtmls with
                | [] => .error (.missingAttribute .location)
                | [_] => .error (.missingAttribute .direction)
                | c0 :: c1 :: restC =>
                  let loc := reformat_ws c0
                  let dir := reformat_ws c1
                  let seller := match restC with
                    | [] => none
                    | _ => some (joinTokens (restC.map reformat_ws))
                  .ok (isCompany, href, price, thumb, title, postedOrig,
                       postedAt, loc, dir, seller)

/-- One iteration of the `parse_document` loop at listing index `i`: errors
before the id is known carry `item_id = none`, later ones carry the id. -/
def parseItem (tz : Timezone) (p : Parser) (i : Nat) (el : ListingNode) :
    Except ItemParseError Item :=
  match extractId el with
  | .error k => .error ⟨i, none, k⟩
  | .ok itemId =>
    match extractRest tz p el with
    | .error k => .error ⟨i, some itemId, k⟩
    | .ok (isCompany, href, price, thumb, title, postedOrig, postedAt, loc, dir, seller) =>
      .ok ⟨itemId, dir, title, price, loc, seller, isCompany, href, thumb,
           postedOrig, postedAt⟩

/-- The enumerated loop of `parse_document`, starting at index `i`. -/
def parseRows (tz : Timezone) (p : Parser) (i : Nat) :
    List ListingNode → Except ItemParseError (List Item)
  | [] => .ok []
  | el :: rest =>
    match parseItem tz p i el with
    | .error e => .error e
    | .ok it =>
      match parseRows tz p (i + 1) rest with
      | .error e => .error e
      | .ok its => .ok (it :: its)

/-- `Parser::parse_document`. -/
def parse_document (tz : Timezone) (p : Parser) (doc : HtmlDoc) :
    Except ItemParseError (List Item) :=
  parseRows tz p 0 doc.rows

/-! ## Europe/Helsinki (chrono-tz `Europe::Helsinki`, modern era)

EET (UTC+2) with summer time EEST (UTC+3) between the last Sunday of March,
01:00 UTC, and the last Sunday of October, 01:00 UTC — the rule in force for
every instant the concrete examples touch. -/

/-- Instant (UTC seconds) of 01:00 UTC on the last Sunday of month `m` of
year `y` (day 0 = 1970-01-01 was a Thursday, so day `z` is a Sunday exactly
when `(z + 4) % 7 = 0`). -/
def lastSundayUtc1 (y : Int) (m : Nat) : Int :=
  let lastDay := daysFromCivil y m 31
  (lastDay - (lastDay + 4) % 7) * 86400 + 3600

def helsinkiDst (t : Int) : Bool :=
  let y := (civilFromDays (t.fdiv 86400)).1
  decide (lastSundayUtc1 y 3 ≤ t) && decide (t < lastSundayUtc1 y 10)

def helsinkiTz : Timezone :=
  ⟨[7200, 10800], fun t => if helsinkiDst t then 10800 else 7200⟩

/-! ## Spec-side predicates and auxiliary definitions used by the theorems -/

/-- Decimal digit character of `k ≤ 9`. -/
def digitChar : Nat → Char
  | 0 => '0'
  | 1 => '1'
  | 2 => '2'
  | 3 => '3'
  | 4 => '4'
  | 5 => '5'
  | 6 => '6'
  | 7 => '7'
  | 8 => '8'
  | _ => '9'

/-- Zero-padded two-digit rendering of `n ≤ 99`. -/
def render2 (n : Nat) : List Char := [digitChar (n / 10), digitChar (n % 10)]

/-- The string contains a substring matching
`(eilen|tänään)\s+\d{2}:\d{2}` — equivalently, `REL_TIME` matches somewhere
in it (the pattern's outer `\s*` pieces are absorbed into the context). -/
def RelMatch (l : List Char) : Prop :=
  ∃ pre tok w t1 t2 t3 t4 rest,
    (tok = "eilen".data ∨ tok = "tänään".data) ∧
    w ≠ [] ∧ (∀ c ∈ w, isWsChar c) ∧
    isDigitChar t1 ∧ isDigitChar t2 ∧ isDigitChar t3 ∧ isDigitChar t4 ∧
    l = pre ++ tok ++ w ++ t1 :: t2 :: ':' :: t3 :: t4 :: rest

/-- The string contains a substring matching
`\d{1,2}\s+[a-zA-Z]{3}\s+\d{2}:\d{2}` — equivalently, `ABS_TIME` matches
somewhere in it. -/
def AbsMatch (l : List Char) : Prop :=
  ∃ pre day w1 mon w2 t1 t2 t3 t4 rest,
    day ≠ [] ∧ day.length ≤ 2 ∧ (∀ c ∈ day, isDigitChar c) ∧
    w1 ≠ [] ∧ (∀ c ∈ w1, isWsChar c) ∧
    mon.length = 3 ∧ (∀ c ∈ mon, isAsciiAlpha c) ∧
    w2 ≠ [] ∧ (∀ c ∈ w2, isWsChar c) ∧
    isDigitChar t1 ∧ isDigitChar t2 ∧ isDigitChar t3 ∧ isDigitChar t4 ∧
    l = pre ++ day ++ w1 ++ mon ++ w2 ++ t1 :: t2 :: ':' :: t3 :: t4 :: rest

/-- Fuel-driven core of `collapseTrimEnd` (fuel bounds the input length). -/
def cteF : Nat → List Char → List Char
  | _, [] => []
  | 0, _ :: _ => []
  | fuel + 1, c :: r =>
    if isWsChar c then
      if (List.dropWhile isWsChar r).isEmpty then []
      else ' ' :: cteF fuel (List.dropWhile isWsChar r)
    else c :: cteF fuel r

/-- Modelled from the spec sentence for whitespace normalization: drop the
leading whitespace run, turn every interior maximal whitespace run into one
space, and drop a trailing run. -/
def collapseTrimEnd (l : List Char) : List Char := cteF l.length l

/-- Spec-side canonical form: whitespace runs collapsed to single spaces,
no leading or trailing whitespace. -/
def canonWs (l : List Char) : List Char := collapseTrimEnd (List.dropWhile isWsChar l)

/-- Some whitespace character sits immediately before some `€` — the
necessary adjacency for the `\s+(€)` tail of `PRICE_PATT` to match. -/
def wsEuroPair : List Char → Bool
  | a :: b :: r => (isWsChar a && b == '€') || wsEuroPair (b :: r)
  | _ => false

/-! ## Concrete fixtures (Europe/Helsinki anchors of the repository's tests) -/

/-- 2023-03-25 10:52:01 Europe/Helsinki (EET, +02:00). -/
def anchor2023 : ZonedDT := ⟨⟨⟨2023, 3, 25⟩, 39121⟩, 7200⟩

def p2023 : Parser := ⟨anchor2023, ⟨⟨⟨2023, 3, 24⟩, 39121⟩, 7200⟩⟩

/-- 2024-01-30 12:30:20 Europe/Helsinki (EET, +02:00). -/
def anchor2024 : ZonedDT := ⟨⟨⟨2024, 1, 30⟩, 45020⟩, 7200⟩

def p2024 : Parser := ⟨anchor2024, ⟨⟨⟨2024, 1, 29⟩, 45020⟩, 7200⟩⟩

/-- A fully well-formed listing node. -/
def goodRow : ListingNode :=
  ⟨some "item_12345".data, some "0".data, some "/vi/12345.htm".data,
   some "1 599 €".data, none, some "Aihe".data, some "tänään 01:23".data,
   ["Helsinki".data, "Etelä".data]⟩

/-- A listing node whose identifier attribute is exactly the stripped tag. -/
def emptyIdRow : ListingNode :=
  ⟨some "item_".data, some "0".data, some "/vi/1.htm".data,
   none, none, some "Aihe".data, some "tänään 01:23".data,
   ["Helsinki".data, "Etelä".data]⟩

/-- A listing node whose price text node exists but holds the empty string. -/
def emptyPriceRow : ListingNode :=
  ⟨some "item_77".data, some "0".data, some "/vi/77.htm".data,
   some [], none, some "Aihe".data, some "tänään 01:23".data,
   ["Helsinki".data, "Etelä".data]⟩

/-- The UTC instant of 2023-03-25 01:23 Europe/Helsinki (EET, +02:00). -/
def posted0123 : Int := instantOf ⟨⟨⟨2023, 3, 25⟩, 4980⟩, 7200⟩

/-- The Item `goodRow` extracts to. -/
def itemG : Item :=
  ⟨"12345".data, "Etelä".data, "Aihe".data, some ⟨1599, "€".data⟩, "Helsinki".data,
   none, false, "/vi/12345.htm".data, none, "tänään 01:23".data, posted0123⟩

/-- The Item `emptyIdRow` extracts to: its `item_id` is empty. -/
def item6 : Item :=
  ⟨[], "Etelä".data, "Aihe".data, none, "Helsinki".data,
   none, false, "/vi/1.htm".data, none, "tänään 01:23".data, posted0123⟩

/-- The Item `emptyPriceRow` extracts to: its `price` is `None` although the
price text node exists (with empty text). -/
def item5 : Item :=
  ⟨"77".data, "Etelä".data, "Aihe".data, none, "Helsinki".data,
   none, false, "/vi/77.htm".data, none, "tänään 01:23".data, posted0123⟩

/-! ## Basic lemmas about the character classes and scanner pieces -/

theorem dropWhile_ws_cons_not {a : Char} (r : List Char) (ha : isWsChar a = false) :
    List.dropWhile isWsChar (a :: r) = a :: r := by
  rw [List.dropWhile_cons, if_neg]
  simp [ha]

theorem dropWhile_ws_allws_append {w : List Char} (r : List Char)
    (hw : ∀ c ∈ w, isWsChar c) :
    List.dropWhile isWsChar (w ++ r) = List.dropWhile isWsChar r := by
  induction w with
  | nil => rfl
  | cons a t ih =>
    rw [List.cons_append, List.dropWhile_cons, if_pos (hw a (by simp))]
    exact ih fun c hc => hw c (by simp [hc])

theorem litM_some_iff (cs l r : List Char) : litM cs l = some r ↔ l = cs ++ r := by
  induction cs generalizing l with
  | nil =>
    simp [litM]
  | cons c cst ih =>
    cases l with
    | nil => simp [litM]
    | cons x xs =>
      by_cases hx : x = c
      · subst hx
        simp [litM, ih]
      · simp [litM, hx, Ne.symm hx]

theorem wsPlus_some_ex {l r : List Char} (h : wsPlus l = some r) :
    ∃ w, w ≠ [] ∧ (∀ c ∈ w, isWsChar c) ∧ l = w ++ r := by
  cases l with
  | nil => simp [wsPlus] at h
  | cons a t =>
    by_cases ha : isWsChar a
    · simp only [wsPlus, if_pos ha] at h
      refine ⟨a :: t.takeWhile isWsChar, by simp, ?_, ?_⟩
      · intro c hc
        rcases List.mem_cons.1 hc with rfl | hc
        · exact ha
        · exact List.mem_takeWhile_imp hc
      · have hr : List.dropWhile isWsChar t = r := by injection h
        rw [← hr]
        simp [List.takeWhile_append_dropWhile]
    · simp [wsPlus, ha] at h

theorem wsPlus_allws_append {w : List Char} {a : Char} (r : List Char)
    (hne : w ≠ []) (hw : ∀ c ∈ w, isWsChar c) (ha : isWsChar a = false) :
    wsPlus (w ++ a :: r) = some (a :: r) := by
  cases w with
  | nil => exact absurd rfl hne
  | cons b t =>
    rw [List.cons_append]
    simp only [wsPlus, if_pos (hw b (by simp))]
    rw [dropWhile_ws_allws_append _ fun c hc => hw c (by simp [hc]),
      dropWhile_ws_cons_not _ ha]

theorem time5_some_iff (l : List Char) (x : List Char × List Char) :
    time5 l = some x ↔
      ∃ t1 t2 t3 t4 r, isDigitChar t1 ∧ isDigitChar t2 ∧ isDigitChar t3 ∧
        isDigitChar t4 ∧ x = ([t1, t2, ':', t3, t4], r) ∧
        l = t1 :: t2 :: ':' :: t3 :: t4 :: r := by
  constructor
  · intro h
    match l, h with
    | t1 :: t2 :: c :: t3 :: t4 :: r, h =>
      simp only [time5] at h
      split at h
      · rename_i hcond
        obtain ⟨rfl, h1, h2, h3, h4⟩ := hcond
        exact ⟨t1, t2, t3, t4, r, h1, h2, h3, h4, by simp at h; simp [← h], rfl⟩
      · exact absurd h (by simp)
  · rintro ⟨t1, t2, t3, t4, r, h1, h2, h3, h4, rfl, rfl⟩
    simp [time5, h1, h2, h3, h4]

theorem alpha3_some_iff (l : List Char) (x : List Char × List Char) :
    alpha3 l = some x ↔
      ∃ a b c r, isAsciiAlpha a ∧ isAsciiAlpha b ∧ isAsciiAlpha c ∧
        x = ([a, b, c], r) ∧ l = a :: b :: c :: r := by
  constructor
  · intro h
    match l, h with
    | a :: b :: c :: r, h =>
      simp only [alpha3] at h
      split at h
      · rename_i hcond
        simp only [Bool.and_eq_true] at hcond
        obtain ⟨⟨h1, h2⟩, h3⟩ := hcond
        exact ⟨a, b, c, r, h1, h2, h3, by simp at h; simp [← h], rfl⟩
      · exact absurd h (by simp)
  · rintro ⟨a, b, c, r, h1, h2, h3, rfl, rfl⟩
    simp [alpha3, h1, h2, h3]

theorem digitChar_isDigit {k : Nat} (hk : k ≤ 9) : isDigitChar (digitChar k) = true := by
  interval_cases k <;> decide

theorem digitChar_not_ws {k : Nat} (hk : k ≤ 9) : isWsChar (digitChar k) = false := by
  interval_cases k <;> decide

theorem digitVal_digitChar {k : Nat} (hk : k ≤ 9) : digitVal (digitChar k) = k := by
  interval_cases k <;> decide

theorem take2Digits_render2 (n : Nat) (hn : n ≤ 99) (r : List Char) :
    take2Digits (render2 n ++ r) = some (n, r) := by
  have h10 : n / 10 ≤ 9 := by omega
  have hm : n % 10 ≤ 9 := Nat.le_of_lt_succ (Nat.mod_lt _ (by norm_num))
  simp only [render2, List.cons_append, List.nil_append, take2Digits,
    digitChar_isDigit h10, digitChar_isDigit hm, if_pos]
  rw [digitVal_digitChar h10, digitVal_digitChar hm]
  simp [Nat.div_add_mod]

theorem parse_hh_mm_render (hh mi : Nat) (hhh : hh ≤ 23) (hmi : mi ≤ 59) :
    parse_hh_mm (render2 hh ++ ':' :: render2 mi) = .ok (hh, mi) := by
  have hh99 : hh ≤ 99 := by omega
  have hm99 : mi ≤ 99 := by omega
  have hd : isWsChar (digitChar (hh / 10)) = false := digitChar_not_ws (by omega)
  have hd2 : isWsChar (digitChar (mi / 10)) = false := digitChar_not_ws (by omega)
  simp only [parse_hh_mm, render2, List.cons_append, List.nil_append]
  rw [dropWhile_ws_cons_not _ hd]
  have := take2Digits_render2 hh hh99 (':' :: render2 mi)
  simp only [render2, List.cons_append, List.nil_append] at this
  rw [this]
  simp only [render2]
  rw [dropWhile_ws_cons_not _ hd2]
  have := take2Digits_render2 mi hm99 []
  simp only [render2, List.cons_append, List.nil_append, List.append_nil] at this
  rw [this]
  simp [hhh, hmi]


theorem digit_not_ws {c : Char} (h : isDigitChar c = true) : isWsChar c = false := by
  simp only [isDigitChar, Bool.and_eq_true, decide_eq_true_eq] at h
  simp only [isWsChar]
  simp only [Bool.or_eq_false_iff, Bool.and_eq_false_iff, beq_eq_false_iff_ne, ne_eq,
    decide_eq_false_iff_not, not_le]
  omega

theorem alpha_not_ws {c : Char} (h : isAsciiAlpha c = true) : isWsChar c = false := by
  simp only [isAsciiAlpha, Bool.or_eq_true, Bool.and_eq_true, decide_eq_true_eq] at h
  simp only [isWsChar]
  simp only [Bool.or_eq_false_iff, Bool.and_eq_false_iff, beq_eq_false_iff_ne, ne_eq,
    decide_eq_false_iff_not, not_le]
  omega

/-! ## Characterization of the `REL_TIME` scanner -/

theorem time5_some_ex {l t5 r : List Char} (h : time5 l = some (t5, r)) :
    ∃ t1 t2 t3 t4, isDigitChar t1 ∧ isDigitChar t2 ∧ isDigitChar t3 ∧
      isDigitChar t4 ∧ t5 = [t1, t2, ':', t3, t4] ∧
      l = t1 :: t2 :: ':' :: t3 :: t4 :: r := by
  obtain ⟨t1, t2, t3, t4, r0, h1, h2, h3, h4, hpair, hl⟩ := (time5_some_iff l (t5, r)).1 h
  obtain ⟨h5, hr⟩ := Prod.ext_iff.1 hpair
  simp only at h5 hr
  subst h5
  subst hr
  exact ⟨t1, t2, t3, t4, h1, h2, h3, h4, rfl, hl⟩

theorem relTail_some_iff (tok r1 : List Char) (x : List Char × List Char) :
    relTail tok r1 = some x ↔
      ∃ w t1 t2 t3 t4 rest, w ≠ [] ∧ (∀ c ∈ w, isWsChar c) ∧
        isDigitChar t1 ∧ isDigitChar t2 ∧ isDigitChar t3 ∧ isDigitChar t4 ∧
        x = (tok, [t1, t2, ':', t3, t4]) ∧
        r1 = w ++ t1 :: t2 :: ':' :: t3 :: t4 :: rest := by
  constructor
  · intro h
    simp only [relTail] at h
    split at h
    case _ r2 hws =>
      split at h
      case _ y t5 rest0 ht =>
        obtain ⟨w, hwne, hw, hr1⟩ := wsPlus_some_ex hws
        obtain ⟨t1, t2, t3, t4, h1, h2, h3, h4, ht5, hr2⟩ := time5_some_ex ht
        have hx : (tok, t5) = x := by injection h
        refine ⟨w, t1, t2, t3, t4, rest0, hwne, hw, h1, h2, h3, h4, ?_, ?_⟩
        · rw [← hx, ht5]
        · rw [hr1, hr2]
      case _ => exact absurd h (by simp)
    case _ => exact absurd h (by simp)
  · rintro ⟨w, t1, t2, t3, t4, rest, hwne, hw, h1, h2, h3, h4, rfl, rfl⟩
    rw [relTail]
    rw [wsPlus_allws_append _ hwne hw (digit_not_ws h1)]
    simp [time5, h1, h2, h3, h4]

theorem tryRelAt_eq_of_eilen (l r1 : List Char)
    (he : litM "eilen".data (List.dropWhile isWsChar l) = some r1) :
    tryRelAt l = relTail "eilen".data r1 := by
  simp [tryRelAt, he]

theorem tryRelAt_eq_of_tanaan (l r1 : List Char)
    (he : litM "eilen".data (List.dropWhile isWsChar l) = none)
    (ht : litM "tänään".data (List.dropWhile isWsChar l) = some r1) :
    tryRelAt l = relTail "tänään".data r1 := by
  simp [tryRelAt, he, ht]

theorem tryRelAt_eq_none_of {l : List Char}
    (he : litM "eilen".data (List.dropWhile isWsChar l) = none)
    (ht : litM "tänään".data (List.dropWhile isWsChar l) = none) :
    tryRelAt l = none := by
  simp [tryRelAt, he, ht]

theorem tryRelAt_some {l : List Char} {x : List Char × List Char}
    (h : tryRelAt l = some x) :
    ∃ w0 tok w t1 t2 t3 t4 rest,
      (∀ c ∈ w0, isWsChar c) ∧ (tok = "eilen".data ∨ tok = "tänään".data) ∧
      w ≠ [] ∧ (∀ c ∈ w, isWsChar c) ∧
      isDigitChar t1 ∧ isDigitChar t2 ∧ isDigitChar t3 ∧ isDigitChar t4 ∧
      x = (tok, [t1, t2, ':', t3, t4]) ∧
      l = w0 ++ tok ++ w ++ t1 :: t2 :: ':' :: t3 :: t4 :: rest := by
  have hsplit : l = List.takeWhile isWsChar l ++ List.dropWhile isWsChar l :=
    (List.takeWhile_append_dropWhile isWsChar l).symm
  have hw0 : ∀ c ∈ List.takeWhile isWsChar l, isWsChar c := fun c hc =>
    List.mem_takeWhile_imp hc
  cases he : litM "eilen".data (List.dropWhile isWsChar l) with
  | some r1 =>
    rw [tryRelAt_eq_of_eilen _ _ he] at h
    obtain ⟨w, t1, t2, t3, t4, rest, hwne, hw, h1, h2, h3, h4, hx, hr1⟩ :=
      (relTail_some_iff _ _ _).1 h
    refine ⟨List.takeWhile isWsChar l, "eilen".data, w, t1, t2, t3, t4, rest,
      hw0, Or.inl rfl, hwne, hw, h1, h2, h3, h4, hx, ?_⟩
    conv_lhs => rw [hsplit, (litM_some_iff _ _ _).1 he, hr1]
    simp [List.append_assoc]
  | none =>
    cases ht : litM "tänään".data (List.dropWhile isWsChar l) with
    | some r1 =>
      rw [tryRelAt_eq_of_tanaan _ _ he ht] at h
      obtain ⟨w, t1, t2, t3, t4, rest, hwne, hw, h1, h2, h3, h4, hx, hr1⟩ :=
        (relTail_some_iff _ _ _).1 h
      refine ⟨List.takeWhile isWsChar l, "tänään".data, w, t1, t2, t3, t4, rest,
        hw0, Or.inr rfl, hwne, hw, h1, h2, h3, h4, hx, ?_⟩
      conv_lhs => rw [hsplit, (litM_some_iff _ _ _).1 ht, hr1]
      simp [List.append_assoc]
    | none =>
      rw [tryRelAt_eq_none_of he ht] at h
      exact absurd h (by simp)

theorem tryRelAt_complete {tok w : List Char} {t1 t2 t3 t4 : Char} (rest : List Char)
    (htok : tok = "eilen".data ∨ tok = "tänään".data)
    (hwne : w ≠ []) (hw : ∀ c ∈ w, isWsChar c)
    (h1 : isDigitChar t1) (h2 : isDigitChar t2) (h3 : isDigitChar t3)
    (h4 : isDigitChar t4) :
    tryRelAt (tok ++ (w ++ t1 :: t2 :: ':' :: t3 :: t4 :: rest)) =
      some (tok, [t1, t2, ':', t3, t4]) := by
  have htail : relTail tok (w ++ t1 :: t2 :: ':' :: t3 :: t4 :: rest) =
      some (tok, [t1, t2, ':', t3, t4]) :=
    (relTail_some_iff _ _ _).2
      ⟨w, t1, t2, t3, t4, rest, hwne, hw, h1, h2, h3, h4, rfl, rfl⟩
  rcases htok with rfl | rfl
  · rw [tryRelAt_eq_of_eilen ("eilen".data ++ (w ++ t1 :: t2 :: ':' :: t3 :: t4 :: rest))
      (w ++ t1 :: t2 :: ':' :: t3 :: t4 :: rest) rfl]
    exact htail
  · rw [tryRelAt_eq_of_tanaan ("tänään".data ++ (w ++ t1 :: t2 :: ':' :: t3 :: t4 :: rest))
      (w ++ t1 :: t2 :: ':' :: t3 :: t4 :: rest) rfl rfl]
    exact htail

theorem relFind_cons_some {c : Char} {r : List Char} {x : List Char × List Char}
    (h : tryRelAt (c :: r) = some x) : relFind (c :: r) = some x := by
  rw [relFind, h]
  rfl

theorem relFind_cons_none {c : Char} {r : List Char}
    (h : tryRelAt (c :: r) = none) : relFind (c :: r) = relFind r := by
  rw [relFind, h]
  rfl

theorem relFind_some_ex {l : List Char} {x : List Char × List Char}
    (h : relFind l = some x) : ∃ pre suf, l = pre ++ suf ∧ tryRelAt suf = some x := by
  induction l with
  | nil => simp [relFind] at h
  | cons c r ih =>
    cases ht : tryRelAt (c :: r) with
    | some y =>
      rw [relFind_cons_some ht] at h
      exact ⟨[], c :: r, rfl, by rw [ht, h]⟩
    | none =>
      rw [relFind_cons_none ht] at h
      obtain ⟨pre, suf, rfl, hsuf⟩ := ih h
      exact ⟨c :: pre, suf, rfl, hsuf⟩

theorem relFind_isSome_append (pre suf : List Char)
    (h : ∃ x, tryRelAt suf = some x) : (relFind (pre ++ suf)).isSome := by
  induction pre with
  | nil =>
    obtain ⟨x, hx⟩ := h
    cases suf with
    | nil =>
      rw [show tryRelAt ([] : List Char) = none from rfl] at hx
      exact absurd hx (by simp)
    | cons c r => simp [relFind_cons_some hx]
  | cons c pre2 ih =>
    rw [List.cons_append]
    cases ht : tryRelAt (c :: (pre2 ++ suf)) with
    | some y => simp [relFind_cons_some ht]
    | none =>
      rw [relFind_cons_none ht]
      exact ih

theorem relMatch_of_relFind {l : List Char} {x : List Char × List Char}
    (h : relFind l = some x) : RelMatch l := by
  obtain ⟨pre, suf, rfl, hsuf⟩ := relFind_some_ex h
  obtain ⟨w0, tok, w, t1, t2, t3, t4, rest, hw0, htok, hwne, hw, h1, h2, h3, h4, _,
    hsufeq⟩ := tryRelAt_some hsuf
  exact ⟨pre ++ w0, tok, w, t1, t2, t3, t4, rest, htok, hwne, hw, h1, h2, h3, h4,
    by rw [hsufeq]; simp⟩

theorem relFind_isSome_of_match {l : List Char} (h : RelMatch l) :
    (relFind l).isSome := by
  obtain ⟨pre, tok, w, t1, t2, t3, t4, rest, htok, hwne, hw, h1, h2, h3, h4, rfl⟩ := h
  have hc := tryRelAt_complete rest htok hwne hw h1 h2 h3 h4
  simp only [List.append_assoc]
  exact relFind_isSome_append pre _ ⟨(tok, [t1, t2, ':', t3, t4]), hc⟩

theorem relFind_eq_none_iff {l : List Char} : relFind l = none ↔ ¬ RelMatch l := by
  constructor
  · intro h hm
    have := relFind_isSome_of_match hm
    rw [h] at this
    simp at this
  · intro hm
    cases hf : relFind l with
    | none => rfl
    | some x => exact absurd (relMatch_of_relFind hf) hm

/-! ## Characterization of the `ABS_TIME` scanner -/

theorem ws_not_digit {c : Char} (h : isWsChar c = true) : isDigitChar c = false := by
  cases hd : isDigitChar c
  · rfl
  · rw [digit_not_ws hd] at h
    exact absurd h (by simp)

theorem orElseO_eq_some {α : Type} {u v : Option α} {x : α} :
    orElseO u v = some x ↔ u = some x ∨ (u = none ∧ v = some x) := by
  cases u <;> simp [orElseO]

theorem alpha3_some_ex {l mon r : List Char} (h : alpha3 l = some (mon, r)) :
    ∃ m1 m2 m3, isAsciiAlpha m1 ∧ isAsciiAlpha m2 ∧ isAsciiAlpha m3 ∧
      mon = [m1, m2, m3] ∧ l = m1 :: m2 :: m3 :: r := by
  obtain ⟨a, b, c, r0, h1, h2, h3, hpair, hl⟩ := (alpha3_some_iff l (mon, r)).1 h
  obtain ⟨hm, hr⟩ := Prod.ext_iff.1 hpair
  simp only at hm hr
  subst hm
  subst hr
  exact ⟨a, b, c, h1, h2, h3, rfl, hl⟩

theorem absTail_some_iff (day r1 : List Char) (x : List Char × List Char × List Char) :
    absTail day r1 = some x ↔
      ∃ w1 m1 m2 m3 w2 t1 t2 t3 t4 rest,
        w1 ≠ [] ∧ (∀ c ∈ w1, isWsChar c) ∧
        isAsciiAlpha m1 ∧ isAsciiAlpha m2 ∧ isAsciiAlpha m3 ∧
        w2 ≠ [] ∧ (∀ c ∈ w2, isWsChar c) ∧
        isDigitChar t1 ∧ isDigitChar t2 ∧ isDigitChar t3 ∧ isDigitChar t4 ∧
        x = (day, [m1, m2, m3], [t1, t2, ':', t3, t4]) ∧
        r1 = w1 ++ m1 :: m2 :: m3 :: (w2 ++ t1 :: t2 :: ':' :: t3 :: t4 :: rest) := by
  constructor
  · intro h
    simp only [absTail] at h
    split at h
    case _ ra hra =>
      split at h
      case _ y mon rb hmon =>
        split at h
        case _ rc hrc =>
          split at h
          case _ z t5 rd ht5 =>
            obtain ⟨w1, hw1ne, hw1, hra2⟩ := wsPlus_some_ex hra
            obtain ⟨m1, m2, m3, hm1, hm2, hm3, hmon2, hrb⟩ := alpha3_some_ex hmon
            obtain ⟨w2, hw2ne, hw2, hrc2⟩ := wsPlus_some_ex hrc
            obtain ⟨t1, t2, t3, t4, h1, h2, h3, h4, ht52, hrd⟩ := time5_some_ex ht5
            have hx : (day, mon, t5) = x := by injection h
            refine ⟨w1, m1, m2, m3, w2, t1, t2, t3, t4, rd, hw1ne, hw1, hm1, hm2, hm3,
              hw2ne, hw2, h1, h2, h3, h4, ?_, ?_⟩
            · rw [← hx, hmon2, ht52]
            · rw [hra2, hrb, hrc2, hrd]
          case _ => exact absurd h (by simp)
        case _ => exact absurd h (by simp)
      case _ => exact absurd h (by simp)
    case _ => exact absurd h (by simp)
  · rintro ⟨w1, m1, m2, m3, w2, t1, t2, t3, t4, rest, hw1ne, hw1, hm1, hm2, hm3,
      hw2ne, hw2, h1, h2, h3, h4, rfl, rfl⟩
    rw [absTail]
    rw [wsPlus_allws_append _ hw1ne hw1 (alpha_not_ws hm1)]
    simp [alpha3, hm1, hm2, hm3,
      wsPlus_allws_append _ hw2ne hw2 (digit_not_ws h1), time5, h1, h2, h3, h4]

theorem tryAbsAt_some {l : List Char} {x : List Char × List Char × List Char}
    (h : tryAbsAt l = some x) :
    ∃ w0 day w1 mon w2 t1 t2 t3 t4 rest,
      (∀ c ∈ w0, isWsChar c) ∧
      day ≠ [] ∧ day.length ≤ 2 ∧ (∀ c ∈ day, isDigitChar c) ∧
      w1 ≠ [] ∧ (∀ c ∈ w1, isWsChar c) ∧
      mon.length = 3 ∧ (∀ c ∈ mon, isAsciiAlpha c) ∧
      w2 ≠ [] ∧ (∀ c ∈ w2, isWsChar c) ∧
      isDigitChar t1 ∧ isDigitChar t2 ∧ isDigitChar t3 ∧ isDigitChar t4 ∧
      x = (day, mon, [t1, t2, ':', t3, t4]) ∧
      l = w0 ++ day ++ w1 ++ mon ++ w2 ++ t1 :: t2 :: ':' :: t3 :: t4 :: rest := by
  have hsplit : l = List.takeWhile isWsChar l ++ List.dropWhile isWsChar l :=
    (List.takeWhile_append_dropWhile isWsChar l).symm
  have hw0 : ∀ c ∈ List.takeWhile isWsChar l, isWsChar c := fun c hc =>
    List.mem_takeWhile_imp hc
  simp only [tryAbsAt] at h
  split at h
  case _ hD => exact absurd h (by simp)
  case _ a rest hD =>
    rw [hsplit, hD]
    by_cases hda : isDigitChar a
    case neg => rw [if_neg (by simp [hda])] at h; exact absurd h (by simp)
    case pos =>
      rw [if_pos hda] at h
      split at h
      case _ => exact absurd h (by simp)
      case _ b r2 =>
        by_cases hdb : isDigitChar b
        case pos =>
          rw [if_pos hdb] at h
          rcases orElseO_eq_some.1 h with h2 | ⟨_, h2⟩
          · obtain ⟨w1, m1, m2, m3, w2, t1, t2, t3, t4, rest2, hw1ne, hw1, hm1, hm2, hm3,
              hw2ne, hw2, h1, h2d, h3, h4, hx, hr2⟩ := (absTail_some_iff _ _ _).1 h2
            refine ⟨List.takeWhile isWsChar l, [a, b], w1, [m1, m2, m3], w2,
              t1, t2, t3, t4, rest2, hw0, by simp, by simp, ?_, hw1ne, hw1,
              by simp, ?_, hw2ne, hw2, h1, h2d, h3, h4, hx, ?_⟩
            · intro c hc
              rcases List.mem_cons.1 hc with rfl | hc
              · exact hda
              · rcases List.mem_cons.1 hc with rfl | hc
                · exact hdb
                · exact absurd hc (by simp)
            · intro c hc
              rcases List.mem_cons.1 hc with rfl | hc
              · exact hm1
              · rcases List.mem_cons.1 hc with rfl | hc
                · exact hm2
                · rcases List.mem_cons.1 hc with rfl | hc
                  · exact hm3
                  · exact absurd hc (by simp)
            · rw [hr2]
              simp [List.append_assoc]
          · obtain ⟨w1, m1, m2, m3, w2, t1, t2, t3, t4, rest2, hw1ne, hw1, hm1, hm2, hm3,
              hw2ne, hw2, h1, h2d, h3, h4, hx, hr2⟩ := (absTail_some_iff _ _ _).1 h2
            refine ⟨List.takeWhile isWsChar l, [a], w1, [m1, m2, m3], w2,
              t1, t2, t3, t4, rest2, hw0, by simp, by simp, ?_, hw1ne, hw1,
              by simp, ?_, hw2ne, hw2, h1, h2d, h3, h4, hx, ?_⟩
            · intro c hc
              rcases List.mem_cons.1 hc with rfl | hc
              · exact hda
              · exact absurd hc (by simp)
            · intro c hc
              rcases List.mem_cons.1 hc with rfl | hc
              · exact hm1
              · rcases List.mem_cons.1 hc with rfl | hc
                · exact hm2
                · rcases List.mem_cons.1 hc with rfl | hc
                  · exact hm3
                  · exact absurd hc (by simp)
            · rw [hr2]
              simp [List.append_assoc]
        case neg =>
          rw [if_neg (by simp [hdb])] at h
          obtain ⟨w1, m1, m2, m3, w2, t1, t2, t3, t4, rest2, hw1ne, hw1, hm1, hm2, hm3,
            hw2ne, hw2, h1, h2d, h3, h4, hx, hr2⟩ := (absTail_some_iff _ _ _).1 h
          refine ⟨List.takeWhile isWsChar l, [a], w1, [m1, m2, m3], w2,
            t1, t2, t3, t4, rest2, hw0, by simp, by simp, ?_, hw1ne, hw1,
            by simp, ?_, hw2ne, hw2, h1, h2d, h3, h4, hx, ?_⟩
          · intro c hc
            rcases List.mem_cons.1 hc with rfl | hc
            · exact hda
            · exact absurd hc (by simp)
          · intro c hc
            rcases List.mem_cons.1 hc with rfl | hc
            · exact hm1
            · rcases List.mem_cons.1 hc with rfl | hc
              · exact hm2
              · rcases List.mem_cons.1 hc with rfl | hc
                · exact hm3
                · exact absurd hc (by simp)
          · rw [hr2]
            simp [List.append_assoc]

theorem exists_three_alpha {mon : List Char} (h3 : mon.length = 3)
    (ha : ∀ c ∈ mon, isAsciiAlpha c) :
    ∃ m1 m2 m3, isAsciiAlpha m1 ∧ isAsciiAlpha m2 ∧ isAsciiAlpha m3 ∧
      mon = [m1, m2, m3] := by
  match mon, h3 with
  | [m1, m2, m3], _ =>
    exact ⟨m1, m2, m3, ha m1 (by simp), ha m2 (by simp), ha m3 (by simp), rfl⟩

theorem tryAbsAt_two {l : List Char} {a b : Char} {r2 : List Char}
    (hD : List.dropWhile isWsChar l = a :: b :: r2)
    (hda : isDigitChar a) (hdb : isDigitChar b) :
    tryAbsAt l = orElseO (absTail [a, b] r2) (absTail [a] (b :: r2)) := by
  simp [tryAbsAt, hD, hda, hdb]

theorem tryAbsAt_one {l : List Char} {a b : Char} {r2 : List Char}
    (hD : List.dropWhile isWsChar l = a :: b :: r2)
    (hda : isDigitChar a) (hdb : isDigitChar b = false) :
    tryAbsAt l = absTail [a] (b :: r2) := by
  simp [tryAbsAt, hD, hda, hdb]

theorem tryAbsAt_complete {day w1 w2 : List Char} {m1 m2 m3 t1 t2 t3 t4 : Char}
    (rest : List Char)
    (hdne : day ≠ []) (hdlen : day.length ≤ 2) (hdd : ∀ c ∈ day, isDigitChar c)
    (hw1ne : w1 ≠ []) (hw1 : ∀ c ∈ w1, isWsChar c)
    (hm1 : isAsciiAlpha m1) (hm2 : isAsciiAlpha m2) (hm3 : isAsciiAlpha m3)
    (hw2ne : w2 ≠ []) (hw2 : ∀ c ∈ w2, isWsChar c)
    (h1 : isDigitChar t1) (h2 : isDigitChar t2) (h3 : isDigitChar t3)
    (h4 : isDigitChar t4) :
    tryAbsAt (day ++
        (w1 ++ m1 :: m2 :: m3 :: (w2 ++ t1 :: t2 :: ':' :: t3 :: t4 :: rest))) =
      some (day, [m1, m2, m3], [t1, t2, ':', t3, t4]) := by
  obtain ⟨cw, w1t, rfl⟩ := List.exists_cons_of_ne_nil hw1ne
  have hcw : isWsChar cw := hw1 cw (by simp)
  have htail : absTail day
      (cw :: (w1t ++ m1 :: m2 :: m3 :: (w2 ++ t1 :: t2 :: ':' :: t3 :: t4 :: rest))) =
      some (day, [m1, m2, m3], [t1, t2, ':', t3, t4]) := by
    have := (absTail_some_iff day
      ((cw :: w1t) ++ m1 :: m2 :: m3 :: (w2 ++ t1 :: t2 :: ':' :: t3 :: t4 :: rest))
      (day, [m1, m2, m3], [t1, t2, ':', t3, t4])).2
      ⟨cw :: w1t, m1, m2, m3, w2, t1, t2, t3, t4, rest,
        by simp, hw1, hm1, hm2, hm3, hw2ne, hw2, h1, h2, h3, h4, rfl, rfl⟩
    simpa using this
  match day, hdne, hdlen, hdd, htail with
  | [a], _, _, hdd, htail =>
    have hda : isDigitChar a := hdd a (by simp)
    simp only [List.cons_append, List.nil_append]
    rw [tryAbsAt_one (dropWhile_ws_cons_not _ (digit_not_ws hda)) hda (ws_not_digit hcw)]
    exact htail
  | [a, b], _, _, hdd, htail =>
    have hda : isDigitChar a := hdd a (by simp)
    have hdb : isDigitChar b := hdd b (by simp)
    simp only [List.cons_append, List.nil_append]
    rw [tryAbsAt_two (dropWhile_ws_cons_not _ (digit_not_ws hda)) hda hdb]
    rw [htail]
    rfl

theorem absFind_cons_some {c : Char} {r : List Char}
    {x : List Char × List Char × List Char}
    (h : tryAbsAt (c :: r) = some x) : absFind (c :: r) = some x := by
  rw [absFind, h]
  rfl

theorem absFind_cons_none {c : Char} {r : List Char}
    (h : tryAbsAt (c :: r) = none) : absFind (c :: r) = absFind r := by
  rw [absFind, h]
  rfl

theorem absFind_some_ex {l : List Char} {x : List Char × List Char × List Char}
    (h : absFind l = some x) : ∃ pre suf, l = pre ++ suf ∧ tryAbsAt suf = some x := by
  induction l with
  | nil => simp [absFind] at h
  | cons c r ih =>
    cases ht : tryAbsAt (c :: r) with
    | some y =>
      rw [absFind_cons_some ht] at h
      exact ⟨[], c :: r, rfl, by rw [ht, h]⟩
    | none =>
      rw [absFind_cons_none ht] at h
      obtain ⟨pre, suf, rfl, hsuf⟩ := ih h
      exact ⟨c :: pre, suf, rfl, hsuf⟩

theorem absFind_isSome_append (pre suf : List Char)
    (h : ∃ x, tryAbsAt suf = some x) : (absFind (pre ++ suf)).isSome := by
  induction pre with
  | nil =>
    obtain ⟨x, hx⟩ := h
    cases suf with
    | nil =>
      rw [show tryAbsAt ([] : List Char) = none from rfl] at hx
      exact absurd hx (by simp)
    | cons c r => simp [absFind_cons_some hx]
  | cons c pre2 ih =>
    rw [List.cons_append]
    cases ht : tryAbsAt (c :: (pre2 ++ suf)) with
    | some y => simp [absFind_cons_some ht]
    | none =>
      rw [absFind_cons_none ht]
      exact ih

theorem absMatch_of_absFind {l : List Char} {x : List Char × List Char × List Char}
    (h : absFind l = some x) : AbsMatch l := by
  obtain ⟨pre, suf, rfl, hsuf⟩ := absFind_some_ex h
  obtain ⟨w0, day, w1, mon, w2, t1, t2, t3, t4, rest, hw0, hdne, hdlen, hdd,
    hw1ne, hw1, hmlen, hma, hw2ne, hw2, h1, h2, h3, h4, _, hsufeq⟩ := tryAbsAt_some hsuf
  exact ⟨pre ++ w0, day, w1, mon, w2, t1, t2, t3, t4, rest, hdne, hdlen, hdd,
    hw1ne, hw1, hmlen, hma, hw2ne, hw2, h1, h2, h3, h4, by rw [hsufeq]; simp⟩

theorem absFind_isSome_of_match {l : List Char} (h : AbsMatch l) :
    (absFind l).isSome := by
  obtain ⟨pre, day, w1, mon, w2, t1, t2, t3, t4, rest, hdne, hdlen, hdd,
    hw1ne, hw1, hmlen, hma, hw2ne, hw2, h1, h2, h3, h4, rfl⟩ := h
  obtain ⟨m1, m2, m3, hm1, hm2, hm3, rfl⟩ := exists_three_alpha hmlen hma
  have hc := tryAbsAt_complete rest hdne hdlen hdd hw1ne hw1 hm1 hm2 hm3
    hw2ne hw2 h1 h2 h3 h4
  simp only [List.append_assoc, List.cons_append, List.nil_append] at hc ⊢
  exact absFind_isSome_append pre _ ⟨_, hc⟩

theorem absFind_eq_none_iff {l : List Char} : absFind l = none ↔ ¬ AbsMatch l := by
  constructor
  · intro h hm
    have := absFind_isSome_of_match hm
    rw [h] at this
    simp at this
  · intro hm
    cases hf : absFind l with
    | none => rfl
    | some x => exact absurd (absMatch_of_absFind hf) hm

/-! ## Parser construction lemmas -/

theorem singleOf_some {r : LocalRes ZonedDT} {z : ZonedDT} (h : singleOf r = some z) :
    r = .single z := by
  cases r with
  | single z2 =>
    simp only [singleOf] at h
    rw [Option.some_inj] at h
    rw [h]
  | nores => exact absurd h (by simp [singleOf])
  | ambiguous a b => exact absurd h (by simp [singleOf])

theorem fromLocal_single_naive {tz : Timezone} {n : NaiveDT} {z : ZonedDT}
    (h : fromLocal tz n = .single z) : z.naive = n := by
  simp only [fromLocal] at h
  split at h
  · exact absurd h (by simp)
  · injection h with h2
    rw [← h2]
  · exact absurd h (by simp)

theorem parserNew_some {tz : Timezone} {ft : ZonedDT} {p : Parser}
    (h : Parser.new tz ft = some p) :
    p.userToday = ft ∧ p.userYesterday.naive = ⟨prevDay ft.naive.date, ft.naive.tod⟩ := by
  simp only [Parser.new] at h
  cases hsub : subDays1 tz ft with
  | none => rw [hsub] at h; exact absurd h (by simp)
  | some yz =>
    rw [hsub] at h
    have h2 : some (⟨ft, yz⟩ : Parser) = some p := h
    have h3 : (⟨ft, yz⟩ : Parser) = p := by injection h2
    have hyz := fromLocal_single_naive (singleOf_some hsub)
    constructor
    · rw [← h3]
    · rw [← h3]
      exact hyz

/-! ## Dispatch of `parse_posted_at` on relative inputs (claim C2) -/

theorem parse_posted_at_of_relFind {tz : Timezone} {p : Parser} {ts relday hhmm : List Char}
    (h : relFind ts = some (relday, hhmm)) :
    parse_posted_at tz p ts = parse_rel_time tz p relday hhmm := by
  simp [parse_posted_at, h]

theorem parse_posted_at_of_absFind {tz : Timezone} {p : Parser} {ts day_s mon_s hhmm_s : List Char}
    (hrel : relFind ts = none) (h : absFind ts = some (day_s, mon_s, hhmm_s)) :
    parse_posted_at tz p ts = parse_abs_time tz p day_s mon_s hhmm_s := by
  simp [parse_posted_at, hrel, h]

theorem parse_rel_time_tanaan {tz : Timezone} {p : Parser} {hhmm : List Char}
    {hh mi : Nat} (hp : parse_hh_mm hhmm = .ok (hh, mi)) :
    parse_rel_time tz p "tänään".data hhmm =
      localToUtcRes tz ⟨p.userToday.naive.date, hh * 3600 + mi * 60⟩ := by
  simp [parse_rel_time, hp]

theorem parse_rel_time_eilen {tz : Timezone} {p : Parser} {hhmm : List Char}
    {hh mi : Nat} (hp : parse_hh_mm hhmm = .ok (hh, mi)) :
    parse_rel_time tz p "eilen".data hhmm =
      localToUtcRes tz ⟨p.userYesterday.naive.date, hh * 3600 + mi * 60⟩ := by
  simp only [parse_rel_time, hp]
  simp

/-- C2 — for every valid HH:MM time, `parse_posted_at` resolves
`tänään <HH:MM>` at the anchor's local calendar date and `eilen <HH:MM>` at
that date minus one day, combining the parsed time of day in the anchor's
timezone and converting the unique local instant to UTC, failing with
`ArithmeticProblem` when the local value is not a unique instant. -/
theorem c2_relative_resolution (tz : Timezone) (ft : ZonedDT) (p : Parser)
    (hh mi : Nat) (hnew : Parser.new tz ft = some p) (hhh : hh ≤ 23) (hmi : mi ≤ 59) :
    parse_posted_at tz p ("tänään ".data ++ (render2 hh ++ ':' :: render2 mi)) =
      localToUtcRes tz ⟨ft.naive.date, hh * 3600 + mi * 60⟩ ∧
    parse_posted_at tz p ("eilen ".data ++ (render2 hh ++ ':' :: render2 mi)) =
      localToUtcRes tz ⟨prevDay ft.naive.date, hh * 3600 + mi * 60⟩ := by
  obtain ⟨htoday, hyest⟩ := parserNew_some hnew
  have hd1 : isDigitChar (digitChar (hh / 10)) := digitChar_isDigit (by omega)
  have hd2 : isDigitChar (digitChar (hh % 10)) := digitChar_isDigit (by omega)
  have hd3 : isDigitChar (digitChar (mi / 10)) := digitChar_isDigit (by omega)
  have hd4 : isDigitChar (digitChar (mi % 10)) := digitChar_isDigit (by omega)
  have hparse : parse_hh_mm [digitChar (hh / 10), digitChar (hh % 10), ':',
      digitChar (mi / 10), digitChar (mi % 10)] = .ok (hh, mi) :=
    parse_hh_mm_render hh mi hhh hmi
  constructor
  · have hc := @tryRelAt_complete "tänään".data [' '] (digitChar (hh / 10))
      (digitChar (hh % 10)) (digitChar (mi / 10)) (digitChar (mi % 10)) []
      (Or.inr rfl) (by simp) (by intro c hc; simp at hc; rw [hc]; decide)
      hd1 hd2 hd3 hd4
    have hfind : relFind ("tänään ".data ++ (render2 hh ++ ':' :: render2 mi)) =
        some ("tänään".data, [digitChar (hh / 10), digitChar (hh % 10), ':',
          digitChar (mi / 10), digitChar (mi % 10)]) :=
      relFind_cons_some hc
    rw [parse_posted_at_of_relFind hfind, parse_rel_time_tanaan hparse, htoday]
  · have hc := @tryRelAt_complete "eilen".data [' '] (digitChar (hh / 10))
      (digitChar (hh % 10)) (digitChar (mi / 10)) (digitChar (mi % 10)) []
      (Or.inl rfl) (by simp) (by intro c hc; simp at hc; rw [hc]; decide)
      hd1 hd2 hd3 hd4
    have hfind : relFind ("eilen ".data ++ (render2 hh ++ ':' :: render2 mi)) =
        some ("eilen".data, [digitChar (hh / 10), digitChar (hh % 10), ':',
          digitChar (mi / 10), digitChar (mi % 10)]) :=
      relFind_cons_some hc
    rw [parse_posted_at_of_relFind hfind, parse_rel_time_eilen hparse, hyest]

/-! ## `REL_TIME` never matches inside a well-formed absolute input -/

theorem litM_none_first {c x : Char} {cs xs : List Char} (h : x ≠ c) :
    litM (c :: cs) (x :: xs) = none := by
  simp [litM, h]

theorem digit_ne_of {c x : Char} (hd : isDigitChar c = true)
    (hx : isDigitChar x = false) : c ≠ x := by
  intro hcx
  rw [hcx, hx] at hd
  exact absurd hd (by simp)

theorem alpha_ne_auml {c : Char} (h : isAsciiAlpha c = true) : c ≠ 'ä' := by
  simp only [isAsciiAlpha, Bool.or_eq_true, Bool.and_eq_true, decide_eq_true_eq] at h
  intro hc
  rw [hc] at h
  revert h
  decide

theorem tryRelAt_none_of_head {c : Char} {r : List Char} (hws : isWsChar c = false)
    (he : c ≠ 'e') (ht : c ≠ 't') : tryRelAt (c :: r) = none := by
  have hdrop : List.dropWhile isWsChar (c :: r) = c :: r := dropWhile_ws_cons_not _ hws
  apply tryRelAt_eq_none_of
  · rw [hdrop]
    exact litM_none_first he
  · rw [hdrop]
    exact litM_none_first ht

theorem tryRelAt_none_digit {c : Char} {r : List Char} (h : isDigitChar c) :
    tryRelAt (c :: r) = none :=
  tryRelAt_none_of_head (digit_not_ws h) (digit_ne_of h (by decide))
    (digit_ne_of h (by decide))

theorem tryRelAt_ws_skip (c : Char) {r : List Char} (h : isWsChar c = true) :
    tryRelAt (c :: r) = tryRelAt r := by
  simp [tryRelAt, List.dropWhile_cons, h]

theorem litM_eilen_none_mon1 {m1 m2 m3 : Char} {r : List Char} :
    litM "eilen".data (m1 :: m2 :: m3 :: ' ' :: r) = none := by
  by_cases he1 : m1 = 'e'
  · subst he1
    by_cases he2 : m2 = 'i'
    · subst he2
      by_cases he3 : m3 = 'l'
      · subst he3
        rfl
      · simp [litM, he3]
    · simp [litM, he2]
  · exact litM_none_first he1

theorem litM_eilen_none_mon2 {m2 m3 : Char} {r : List Char} :
    litM "eilen".data (m2 :: m3 :: ' ' :: r) = none := by
  by_cases he1 : m2 = 'e'
  · subst he1
    by_cases he2 : m3 = 'i'
    · subst he2
      rfl
    · simp [litM, he2]
  · exact litM_none_first he1

theorem litM_eilen_none_mon3 {m3 : Char} {r : List Char} :
    litM "eilen".data (m3 :: ' ' :: r) = none := by
  by_cases he1 : m3 = 'e'
  · subst he1
    rfl
  · exact litM_none_first he1

theorem litM_tanaan_none_alpha2 {m1 m2 : Char} {r : List Char}
    (hm2 : isAsciiAlpha m2) : litM "tänään".data (m1 :: m2 :: r) = none := by
  by_cases ht1 : m1 = 't'
  · subst ht1
    simp [litM, alpha_ne_auml hm2]
  · exact litM_none_first ht1

theorem litM_tanaan_none_sp2 {m : Char} {r : List Char} :
    litM "tänään".data (m :: ' ' :: r) = none := by
  by_cases ht1 : m = 't'
  · subst ht1
    simp [litM]
  · exact litM_none_first ht1

theorem tryRelAt_none_mon1 {m1 m2 m3 : Char} {r : List Char}
    (hm1 : isAsciiAlpha m1) (hm2 : isAsciiAlpha m2) :
    tryRelAt (m1 :: m2 :: m3 :: ' ' :: r) = none := by
  have hdrop : List.dropWhile isWsChar (m1 :: m2 :: m3 :: ' ' :: r) =
      m1 :: m2 :: m3 :: ' ' :: r := dropWhile_ws_cons_not _ (alpha_not_ws hm1)
  apply tryRelAt_eq_none_of
  · rw [hdrop]
    exact litM_eilen_none_mon1
  · rw [hdrop]
    exact litM_tanaan_none_alpha2 hm2

theorem tryRelAt_none_mon2 {m2 m3 : Char} {r : List Char}
    (hm2 : isAsciiAlpha m2) (hm3 : isAsciiAlpha m3) :
    tryRelAt (m2 :: m3 :: ' ' :: r) = none := by
  have hdrop : List.dropWhile isWsChar (m2 :: m3 :: ' ' :: r) =
      m2 :: m3 :: ' ' :: r := dropWhile_ws_cons_not _ (alpha_not_ws hm2)
  apply tryRelAt_eq_none_of
  · rw [hdrop]
    exact litM_eilen_none_mon2
  · rw [hdrop]
    exact litM_tanaan_none_alpha2 hm3

theorem tryRelAt_none_mon3 {m3 : Char} {r : List Char} (hm3 : isAsciiAlpha m3) :
    tryRelAt (m3 :: ' ' :: r) = none := by
  have hdrop : List.dropWhile isWsChar (m3 :: ' ' :: r) = m3 :: ' ' :: r :=
    dropWhile_ws_cons_not _ (alpha_not_ws hm3)
  apply tryRelAt_eq_none_of
  · rw [hdrop]
    exact litM_eilen_none_mon3
  · rw [hdrop]
    exact litM_tanaan_none_sp2

theorem tryRelAt_none_colon {r : List Char} : tryRelAt (':' :: r) = none :=
  tryRelAt_none_of_head (by decide) (by decide) (by decide)

theorem relFind_step_none {c : Char} {r : List Char}
    (h : tryRelAt (c :: r) = none) : relFind (c :: r) = relFind r :=
  relFind_cons_none h

theorem relFind_abs_shape_one {a m1 m2 m3 t1 t2 t3 t4 : Char}
    (ha : isDigitChar a)
    (hm1 : isAsciiAlpha m1) (hm2 : isAsciiAlpha m2) (hm3 : isAsciiAlpha m3)
    (h1 : isDigitChar t1) (h2 : isDigitChar t2) (h3 : isDigitChar t3)
    (h4 : isDigitChar t4) :
    relFind [a, ' ', m1, m2, m3, ' ', t1, t2, ':', t3, t4] = none := by
  rw [relFind_step_none (tryRelAt_none_digit ha)]
  rw [relFind_step_none (by rw [tryRelAt_ws_skip ' ' rfl]; exact tryRelAt_none_mon1 hm1 hm2)]
  rw [relFind_step_none (tryRelAt_none_mon1 hm1 hm2)]
  rw [relFind_step_none (tryRelAt_none_mon2 hm2 hm3)]
  rw [relFind_step_none (tryRelAt_none_mon3 hm3)]
  rw [relFind_step_none (by rw [tryRelAt_ws_skip ' ' rfl]; exact tryRelAt_none_digit h1)]
  rw [relFind_step_none (tryRelAt_none_digit h1)]
  rw [relFind_step_none (tryRelAt_none_digit h2)]
  rw [relFind_step_none tryRelAt_none_colon]
  rw [relFind_step_none (tryRelAt_none_digit h3)]
  rw [relFind_step_none (tryRelAt_none_digit h4)]
  rfl

theorem relFind_abs_shape_two {a b m1 m2 m3 t1 t2 t3 t4 : Char}
    (ha : isDigitChar a) (hb : isDigitChar b)
    (hm1 : isAsciiAlpha m1) (hm2 : isAsciiAlpha m2) (hm3 : isAsciiAlpha m3)
    (h1 : isDigitChar t1) (h2 : isDigitChar t2) (h3 : isDigitChar t3)
    (h4 : isDigitChar t4) :
    relFind [a, b, ' ', m1, m2, m3, ' ', t1, t2, ':', t3, t4] = none := by
  rw [relFind_step_none (tryRelAt_none_digit ha)]
  exact relFind_abs_shape_one hb hm1 hm2 hm3 h1 h2 h3 h4

/-! ## Evaluation of `parse_abs_time` (claims C1 and C7) -/

theorem withYmdHms_single_parts {tz : Timezone} {y : Int} {m d hh mi s : Nat}
    {z : ZonedDT} (h : withYmdHms tz y m d hh mi s = .single z) :
    validDate y m d ∧ z.naive = ⟨⟨y, m, d⟩, hh * 3600 + mi * 60 + s⟩ ∧
      fromLocal tz ⟨⟨y, m, d⟩, hh * 3600 + mi * 60 + s⟩ = .single z := by
  simp only [withYmdHms] at h
  split at h
  case _ hcond =>
    exact ⟨hcond.1, fromLocal_single_naive h, h⟩
  case _ => exact absurd h (by simp)

theorem dtWithYear_self {tz : Timezone} {z : ZonedDT}
    (hv : validDate z.naive.date.y z.naive.date.m z.naive.date.d)
    (hf : fromLocal tz z.naive = .single z) :
    dtWithYear tz z z.naive.date.y = some z := by
  rw [dtWithYear, if_pos hv]
  rw [show (⟨⟨z.naive.date.y, z.naive.date.m, z.naive.date.d⟩, z.naive.tod⟩ : NaiveDT)
      = z.naive from rfl, hf]
  rfl

theorem parse_day_ne_nil {dayS : List Char} {d : Nat} (h : parse_day dayS = .ok d) :
    dayS ≠ [] := by
  intro h0
  subst h0
  rw [show parse_day [] = .error (.invalidDay []) from rfl] at h
  exact absurd h (by simp)

theorem parse_abs_time_eval {tz : Timezone} {p : Parser} {dayS monS timeS : List Char}
    {d : Nat} {mo : Month} {hh mi : Nat} {z : ZonedDT}
    (hday : parse_day dayS = .ok d) (hmon : parse_month_short monS = .ok mo)
    (htime : parse_hh_mm timeS = .ok (hh, mi))
    (hbuild : withYmdHms tz p.userToday.naive.date.y (numberFromMonth mo) d hh mi 0 =
      .single z) :
    parse_abs_time tz p dayS monS timeS =
      if instantOf p.userToday < instantOf z then
        (match dtWithYear tz z (z.naive.date.y - 1) with
         | some z2 => .ok (instantOf z2)
         | none => .error .arithmeticProblem)
      else .ok (instantOf z) := by
  obtain ⟨hv, hn, hf⟩ := withYmdHms_single_parts hbuild
  have hdate : z.naive.date = ⟨p.userToday.naive.date.y, numberFromMonth mo, d⟩ := by
    rw [hn]
  have hv2 : validDate z.naive.date.y z.naive.date.m z.naive.date.d := by
    rw [hdate]
    exact hv
  have hf2 : fromLocal tz z.naive = .single z := by
    rw [hn]
    exact hf
  simp only [parse_abs_time, hday, hmon, htime, hbuild]
  by_cases hcmp : instantOf p.userToday < instantOf z
  · simp only [hcmp, if_true, if_pos]
  · simp only [hcmp, if_false, if_neg, not_false_iff]
    rw [Int.sub_zero, dtWithYear_self hv2 hf2]

/-- Dispatch of `parse_posted_at` on a well-formed absolute input: the
relative pattern cannot match anywhere in it, the absolute pattern matches it
from the start, and the three captures are exactly the three tokens. -/
theorem parse_posted_at_abs_input (tz : Timezone) (p : Parser)
    (dayS monS : List Char) (t1 t2 t3 t4 : Char)
    (hdne : dayS ≠ []) (hdlen : dayS.length ≤ 2) (hdd : ∀ c ∈ dayS, isDigitChar c)
    (hmlen : monS.length = 3) (hma : ∀ c ∈ monS, isAsciiAlpha c)
    (h1 : isDigitChar t1) (h2 : isDigitChar t2) (h3 : isDigitChar t3)
    (h4 : isDigitChar t4) :
    parse_posted_at tz p (dayS ++ ' ' :: monS ++ ' ' :: [t1, t2, ':', t3, t4]) =
      parse_abs_time tz p dayS monS [t1, t2, ':', t3, t4] := by
  obtain ⟨m1, m2, m3, hm1, hm2, hm3, rfl⟩ := exists_three_alpha hmlen hma
  match dayS, hdne, hdlen, hdd with
  | [a], _, _, hdd =>
    have ha : isDigitChar a := hdd a (by simp)
    have hlist : ([a] ++ ' ' :: [m1, m2, m3] ++ ' ' :: [t1, t2, ':', t3, t4]) =
        [a, ' ', m1, m2, m3, ' ', t1, t2, ':', t3, t4] := by simp
    rw [hlist]
    have hrel : relFind [a, ' ', m1, m2, m3, ' ', t1, t2, ':', t3, t4] = none :=
      relFind_abs_shape_one ha hm1 hm2 hm3 h1 h2 h3 h4
    have hc := @tryAbsAt_complete [a] [' '] [' '] m1 m2 m3 t1 t2 t3 t4 []
      (by simp) (by simp) (by intro c hc; simp at hc; rw [hc]; exact ha)
      (by simp) (by intro c hc; simp at hc; rw [hc]; rfl)
      hm1 hm2 hm3 (by simp) (by intro c hc; simp at hc; rw [hc]; rfl)
      h1 h2 h3 h4
    have hc2 : tryAbsAt [a, ' ', m1, m2, m3, ' ', t1, t2, ':', t3, t4] =
        some ([a], [m1, m2, m3], [t1, t2, ':', t3, t4]) := hc
    exact parse_posted_at_of_absFind hrel (absFind_cons_some hc2)
  | [a, b], _, _, hdd =>
    have ha : isDigitChar a := hdd a (by simp)
    have hb : isDigitChar b := hdd b (by simp)
    have hlist : ([a, b] ++ ' ' :: [m1, m2, m3] ++ ' ' :: [t1, t2, ':', t3, t4]) =
        [a, b, ' ', m1, m2, m3, ' ', t1, t2, ':', t3, t4] := by simp
    rw [hlist]
    have hrel : relFind [a, b, ' ', m1, m2, m3, ' ', t1, t2, ':', t3, t4] = none :=
      relFind_abs_shape_two ha hb hm1 hm2 hm3 h1 h2 h3 h4
    have hc := @tryAbsAt_complete [a, b] [' '] [' '] m1 m2 m3 t1 t2 t3 t4 []
      (by simp) (by simp)
      (by intro c hc; simp at hc; rcases hc with rfl | rfl; exacts [ha, hb])
      (by simp) (by intro c hc; simp at hc; rw [hc]; rfl)
      hm1 hm2 hm3 (by simp) (by intro c hc; simp at hc; rw [hc]; rfl)
      h1 h2 h3 h4
    have hc2 : tryAbsAt [a, b, ' ', m1, m2, m3, ' ', t1, t2, ':', t3, t4] =
        some ([a, b], [m1, m2, m3], [t1, t2, ':', t3, t4]) := hc
    exact parse_posted_at_of_absFind hrel (absFind_cons_some hc2)

/-- C1 (amended) — for every absolute-form input `<day> <month-abbrev> <HH:MM>`
with valid sub-tokens whose local datetime, built from the anchor's current
year, the parsed month and day and the parsed time in the anchor's timezone,
resolves to a unique instant `z`: when `z` is strictly after the anchor
instant, `parse_posted_at` returns `z` with its year decreased by one
converted to UTC provided the year-decremented local datetime exists and
resolves to a unique instant (otherwise `ArithmeticProblem`); otherwise it
returns `z` (in the anchor's year) converted to UTC. -/
theorem c1_absolute_year_rollback (tz : Timezone) (p : Parser)
    (dayS monS : List Char) (t1 t2 t3 t4 : Char)
    (d : Nat) (mo : Month) (hh mi : Nat) (z : ZonedDT)
    (hdlen : dayS.length ≤ 2) (hdd : ∀ c ∈ dayS, isDigitChar c)
    (hmlen : monS.length = 3) (hma : ∀ c ∈ monS, isAsciiAlpha c)
    (h1 : isDigitChar t1) (h2 : isDigitChar t2) (h3 : isDigitChar t3)
    (h4 : isDigitChar t4)
    (hday : parse_day dayS = .ok d) (hmon : parse_month_short monS = .ok mo)
    (htime : parse_hh_mm [t1, t2, ':', t3, t4] = .ok (hh, mi))
    (hbuild : withYmdHms tz p.userToday.naive.date.y (numberFromMonth mo) d hh mi 0 =
      .single z) :
    parse_posted_at tz p (dayS ++ ' ' :: monS ++ ' ' :: [t1, t2, ':', t3, t4]) =
      if instantOf p.userToday < instantOf z then
        (match dtWithYear tz z (z.naive.date.y - 1) with
         | some z2 => .ok (instantOf z2)
         | none => .error .arithmeticProblem)
      else .ok (instantOf z) := by
  rw [parse_posted_at_abs_input tz p dayS monS t1 t2 t3 t4 (parse_day_ne_nil hday)
    hdlen hdd hmlen hma h1 h2 h3 h4]
  exact parse_abs_time_eval hday hmon htime hbuild

/-- C1 counterexample — with the anchor 2024-01-30 12:30:20 Europe/Helsinki
and the absolute input `29 hel 13:00`, every sub-token is valid, the local
datetime built in the anchor's current year (2024-02-29 13:00) is a unique
instant strictly after the anchor, yet `parse_posted_at` returns
`ArithmeticProblem` — not that datetime with its year decreased by one — 
because 2023-02-29 does not exist. -/
theorem c1_counterexample :
    withYmdHms helsinkiTz 2024 2 29 13 0 0 = .single ⟨⟨⟨2024, 2, 29⟩, 46800⟩, 7200⟩ ∧
    p2024.userToday.naive.date.y = 2024 ∧
    Parser.new helsinkiTz anchor2024 = some p2024 ∧
    instantOf p2024.userToday < instantOf ⟨⟨⟨2024, 2, 29⟩, 46800⟩, 7200⟩ ∧
    parse_day "29".data = .ok 29 ∧
    parse_month_short "hel".data = .ok .february ∧
    parse_hh_mm "13:00".data = .ok (13, 0) ∧
    parse_posted_at helsinkiTz p2024 "29 hel 13:00".data =
      .error .arithmeticProblem := by
  decide

/-- C1 witness — the repository's own year-rollback example: with the anchor
2023-03-25 10:52:01 Europe/Helsinki, `21 huh 19:52` resolves to
2022-04-21 19:52 Europe/Helsinki (EEST) converted to UTC. -/
theorem c1_witness :
    parse_posted_at helsinkiTz p2023
        ("21".data ++ ' ' :: "huh".data ++ ' ' :: ['1', '9', ':', '5', '2']) =
      .ok (instantOf ⟨⟨⟨2022, 4, 21⟩, 71520⟩, 10800⟩) := by
  have h := c1_absolute_year_rollback helsinkiTz p2023 "21".data "huh".data
    '1' '9' '5' '2' 21 .april 19 52 ⟨⟨⟨2023, 4, 21⟩, 71520⟩, 10800⟩
    (by decide) (by decide) (by decide) (by decide) (by decide) (by decide)
    (by decide) (by decide) (by decide) (by decide) (by decide) (by decide)
  rw [h]
  decide

/-- C7 — in absolute-form resolution, when the year-rollback target date does
not exist (the leap-day edge case), `parse_posted_at` fails with
`ArithmeticProblem`. -/
theorem c7_rollback_invalid_date (tz : Timezone) (p : Parser)
    (dayS monS : List Char) (t1 t2 t3 t4 : Char)
    (d : Nat) (mo : Month) (hh mi : Nat) (z : ZonedDT)
    (hdlen : dayS.length ≤ 2) (hdd : ∀ c ∈ dayS, isDigitChar c)
    (hmlen : monS.length = 3) (hma : ∀ c ∈ monS, isAsciiAlpha c)
    (h1 : isDigitChar t1) (h2 : isDigitChar t2) (h3 : isDigitChar t3)
    (h4 : isDigitChar t4)
    (hday : parse_day dayS = .ok d) (hmon : parse_month_short monS = .ok mo)
    (htime : parse_hh_mm [t1, t2, ':', t3, t4] = .ok (hh, mi))
    (hbuild : withYmdHms tz p.userToday.naive.date.y (numberFromMonth mo) d hh mi 0 =
      .single z)
    (hafter : instantOf p.userToday < instantOf z)
    (hbad : ¬ validDate (z.naive.date.y - 1) z.naive.date.m z.naive.date.d) :
    parse_posted_at tz p (dayS ++ ' ' :: monS ++ ' ' :: [t1, t2, ':', t3, t4]) =
      .error .arithmeticProblem := by
  rw [parse_posted_at_abs_input tz p dayS monS t1 t2 t3 t4 (parse_day_ne_nil hday)
    hdlen hdd hmlen hma h1 h2 h3 h4]
  rw [parse_abs_time_eval hday hmon htime hbuild, if_pos hafter]
  rw [show dtWithYear tz z (z.naive.date.y - 1) = none from by
    rw [dtWithYear, if_neg hbad]]

/-- C7 witness — anchor 2024-01-30 12:30:20 Europe/Helsinki, input
`29 hel 13:00`: rollback targets 2023-02-29, which does not exist, so the
resolution fails with `ArithmeticProblem`. -/
theorem c7_witness :
    parse_posted_at helsinkiTz p2024
        ("29".data ++ ' ' :: "hel".data ++ ' ' :: ['1', '3', ':', '0', '0']) =
      .error .arithmeticProblem :=
  c7_rollback_invalid_date helsinkiTz p2024 "29".data "hel".data
    '1' '3' '0' '0' 29 .february 13 0 ⟨⟨⟨2024, 2, 29⟩, 46800⟩, 7200⟩
    (by decide) (by decide) (by decide) (by decide) (by decide) (by decide)
    (by decide) (by decide) (by decide) (by decide) (by decide) (by decide)
    (by decide) (by decide)

/-- C2 witness — the anchor 2023-03-25 10:52:01 Europe/Helsinki with the
repository's own examples `tänään 01:23` and `eilen 15:59`-style inputs. -/
theorem c2_witness :
    (parse_posted_at helsinkiTz p2023 ("tänään ".data ++ (render2 1 ++ ':' :: render2 23)) =
      localToUtcRes helsinkiTz ⟨anchor2023.naive.date, 1 * 3600 + 23 * 60⟩) ∧
    (parse_posted_at helsinkiTz p2023 ("eilen ".data ++ (render2 1 ++ ':' :: render2 23)) =
      localToUtcRes helsinkiTz ⟨prevDay anchor2023.naive.date, 1 * 3600 + 23 * 60⟩) :=
  c2_relative_resolution helsinkiTz anchor2023 p2023 1 23 (by decide) (by decide) (by decide)

/-- C4 counterexample — `parse_month_short` lowercases its argument first, so
the token `TAM`, which is not one of the twelve lowercase tokens, succeeds
with January instead of failing with `InvalidMonth`. -/
theorem c4_counterexample :
    "TAM".data ∉ monthTokens ∧ parse_month_short "TAM".data = .ok .january := by
  decide

/-- C4 (amended) — `parse_month_short` maps, case-insensitively, exactly the
twelve tokens tam, hel, maa, huh, tou, kes, hei, elo, syy, lok, mar, jou to
January through December in that order: a token succeeds exactly when its
lowercase form is the month's token, and every token whose lowercase form is
none of the twelve fails with `InvalidMonth` carrying the offending token. -/
theorem c4_month_tokens_amended :
    (∀ m : Month, parse_month_short (tokenOfMonth m) = .ok m) ∧
    (∀ l : List Char, ∀ m : Month, parse_month_short l = .ok m →
      l.map toLowerAscii = tokenOfMonth m) ∧
    (∀ l : List Char, l.map toLowerAscii ∉ monthTokens →
      parse_month_short l = .error (.invalidMonth l)) := by
  refine ⟨?_, ?_, ?_⟩
  · intro m
    cases m <;> decide
  · intro l m h
    simp only [parse_month_short] at h
    by_cases hc1 : List.map toLowerAscii l = "tam".data
    · rw [if_pos hc1] at h
      injection h with h2
      subst h2
      exact hc1
    · rw [if_neg hc1] at h
      by_cases hc2 : List.map toLowerAscii l = "hel".data
      · rw [if_pos hc2] at h
        injection h with h2
        subst h2
        exact hc2
      · rw [if_neg hc2] at h
        by_cases hc3 : List.map toLowerAscii l = "maa".data
        · rw [if_pos hc3] at h
          injection h with h2
          subst h2
          exact hc3
        · rw [if_neg hc3] at h
          by_cases hc4 : List.map toLowerAscii l = "huh".data
          · rw [if_pos hc4] at h
            injection h with h2
            subst h2
            exact hc4
          · rw [if_neg hc4] at h
            by_cases hc5 : List.map toLowerAscii l = "tou".data
            · rw [if_pos hc5] at h
              injection h with h2
              subst h2
              exact hc5
            · rw [if_neg hc5] at h
              by_cases hc6 : List.map toLowerAscii l = "kes".data
              · rw [if_pos hc6] at h
                injection h with h2
                subst h2
                exact hc6
              · rw [if_neg hc6] at h
                by_cases hc7 : List.map toLowerAscii l = "hei".data
                · rw [if_pos hc7] at h
                  injection h with h2
                  subst h2
                  exact hc7
                · rw [if_neg hc7] at h
                  by_cases hc8 : List.map toLowerAscii l = "elo".data
                  · rw [if_pos hc8] at h
                    injection h with h2
                    subst h2
                    exact hc8
                  · rw [if_neg hc8] at h
                    by_cases hc9 : List.map toLowerAscii l = "syy".data
                    · rw [if_pos hc9] at h
                      injection h with h2
                      subst h2
                      exact hc9
                    · rw [if_neg hc9] at h
                      by_cases hc10 : List.map toLowerAscii l = "lok".data
                      · rw [if_pos hc10] at h
                        injection h with h2
                        subst h2
                        exact hc10
                      · rw [if_neg hc10] at h
                        by_cases hc11 : List.map toLowerAscii l = "mar".data
                        · rw [if_pos hc11] at h
                          injection h with h2
                          subst h2
                          exact hc11
                        · rw [if_neg hc11] at h
                          by_cases hc12 : List.map toLowerAscii l = "jou".data
                          · rw [if_pos hc12] at h
                            injection h with h2
                            subst h2
                            exact hc12
                          · rw [if_neg hc12] at h
                            injection h
  · intro l hmem
    have hne1 : ¬ (l.map toLowerAscii = "tam".data) := fun he => hmem (by rw [he]; decide)
    have hne2 : ¬ (l.map toLowerAscii = "hel".data) := fun he => hmem (by rw [he]; decide)
    have hne3 : ¬ (l.map toLowerAscii = "maa".data) := fun he => hmem (by rw [he]; decide)
    have hne4 : ¬ (l.map toLowerAscii = "huh".data) := fun he => hmem (by rw [he]; decide)
    have hne5 : ¬ (l.map toLowerAscii = "tou".data) := fun he => hmem (by rw [he]; decide)
    have hne6 : ¬ (l.map toLowerAscii = "kes".data) := fun he => hmem (by rw [he]; decide)
    have hne7 : ¬ (l.map toLowerAscii = "hei".data) := fun he => hmem (by rw [he]; decide)
    have hne8 : ¬ (l.map toLowerAscii = "elo".data) := fun he => hmem (by rw [he]; decide)
    have hne9 : ¬ (l.map toLowerAscii = "syy".data) := fun he => hmem (by rw [he]; decide)
    have hne10 : ¬ (l.map toLowerAscii = "lok".data) := fun he => hmem (by rw [he]; decide)
    have hne11 : ¬ (l.map toLowerAscii = "mar".data) := fun he => hmem (by rw [he]; decide)
    have hne12 : ¬ (l.map toLowerAscii = "jou".data) := fun he => hmem (by rw [he]; decide)
    simp only [parse_month_short, if_neg hne1, if_neg hne2, if_neg hne3, if_neg hne4, if_neg hne5, if_neg hne6, if_neg hne7, if_neg hne8, if_neg hne9, if_neg hne10, if_neg hne11, if_neg hne12]
/-! ## Whitespace normalization (claim C8) -/

theorem length_dropWhile_le2 (p : Char → Bool) (l : List Char) :
    (List.dropWhile p l).length ≤ l.length := by
  induction l with
  | nil => simp
  | cons a t ih =>
    rw [List.dropWhile_cons]
    split
    · exact Nat.le_trans ih (Nat.le_succ _)
    · simp

theorem splitWsF_congr (f : Nat) : ∀ (g : Nat) (l : List Char),
    l.length ≤ f → l.length ≤ g → splitWsF f l = splitWsF g l := by
  induction f with
  | zero =>
    intro g l hf _
    have : l = [] := by
      cases l
      · rfl
      · simp at hf
    subst this
    cases g <;> rfl
  | succ f ih =>
    intro g l hf hg
    cases l with
    | nil => cases g <;> rfl
    | cons c r =>
      cases g with
      | zero => simp at hg
      | succ g2 =>
        simp only [List.length_cons] at hf hg
        simp only [splitWsF]
        by_cases hc : isWsChar c
        · rw [if_pos hc, if_pos hc]
          exact ih g2 r (by omega) (by omega)
        · rw [if_neg hc, if_neg hc]
          have hlen := length_dropWhile_le2 (fun x => !isWsChar x) r
          rw [ih g2 (List.dropWhile (fun x => !isWsChar x) r) (by omega) (by omega)]

theorem splitWs_nil : splitWs [] = [] := rfl

theorem splitWs_ws {c : Char} {r : List Char} (h : isWsChar c = true) :
    splitWs (c :: r) = splitWs r := by
  simp only [splitWs, List.length_cons, splitWsF, if_pos h]

theorem splitWs_cons {c : Char} {r : List Char} (h : isWsChar c = false) :
    splitWs (c :: r) =
      (c :: List.takeWhile (fun x => !isWsChar x) r)
        :: splitWs (List.dropWhile (fun x => !isWsChar x) r) := by
  simp only [splitWs, List.length_cons, splitWsF, if_neg (by simp [h] : ¬ isWsChar c = true)]
  have hlen := length_dropWhile_le2 (fun x => !isWsChar x) r
  rw [splitWsF_congr r.length (List.dropWhile (fun x => !isWsChar x) r).length
    (List.dropWhile (fun x => !isWsChar x) r) hlen (Nat.le_refl _)]

theorem cteF_congr (f : Nat) : ∀ (g : Nat) (l : List Char),
    l.length ≤ f → l.length ≤ g → cteF f l = cteF g l := by
  induction f with
  | zero =>
    intro g l hf _
    have : l = [] := by
      cases l
      · rfl
      · simp at hf
    subst this
    cases g <;> rfl
  | succ f ih =>
    intro g l hf hg
    cases l with
    | nil => cases g <;> rfl
    | cons c r =>
      cases g with
      | zero => simp at hg
      | succ g2 =>
        simp only [List.length_cons] at hf hg
        simp only [cteF]
        by_cases hc : isWsChar c
        · rw [if_pos hc, if_pos hc]
          have hlen := length_dropWhile_le2 isWsChar r
          split
          · rfl
          · rw [ih g2 (List.dropWhile isWsChar r) (by omega) (by omega)]
        · rw [if_neg hc, if_neg hc]
          rw [ih g2 r (by omega) (by omega)]

theorem cte_nil : collapseTrimEnd [] = [] := rfl

theorem cte_ws {c : Char} {r : List Char} (h : isWsChar c = true) :
    collapseTrimEnd (c :: r) =
      if (List.dropWhile isWsChar r).isEmpty then []
      else ' ' :: collapseTrimEnd (List.dropWhile isWsChar r) := by
  simp only [collapseTrimEnd, List.length_cons, cteF, if_pos h]
  have hlen := length_dropWhile_le2 isWsChar r
  split
  · rfl
  · rw [cteF_congr r.length (List.dropWhile isWsChar r).length
      (List.dropWhile isWsChar r) hlen (Nat.le_refl _)]

theorem cte_cons {c : Char} {r : List Char} (h : isWsChar c = false) :
    collapseTrimEnd (c :: r) = c :: collapseTrimEnd r := by
  simp only [collapseTrimEnd, List.length_cons, cteF,
    if_neg (by simp [h] : ¬ isWsChar c = true)]

theorem joinTokens_cons2 (t s : List Char) (ss : List (List Char)) :
    joinTokens (t :: s :: ss) = t ++ ' ' :: joinTokens (s :: ss) := rfl

theorem splitWs_tokens : ∀ (n : Nat) (l : List Char), l.length ≤ n →
    ∀ t ∈ splitWs l, t ≠ [] ∧ ∀ c ∈ t, isWsChar c = false := by
  intro n
  induction n with
  | zero =>
    intro l hl
    have : l = [] := by
      cases l
      · rfl
      · simp at hl
    subst this
    simp [splitWs_nil]
  | succ n ih =>
    intro l hl
    cases l with
    | nil => simp [splitWs_nil]
    | cons c r =>
      simp only [List.length_cons] at hl
      by_cases hc : isWsChar c
      · rw [splitWs_ws hc]
        exact ih r (by omega)
      · rw [splitWs_cons (by simp [hc])]
        intro t ht
        rcases List.mem_cons.1 ht with rfl | ht
        · refine ⟨by simp, ?_⟩
          intro x hx
          rcases List.mem_cons.1 hx with rfl | hx
          · simp [hc]
          · have := List.mem_takeWhile_imp hx
            simp at this
            exact this
        · have hlen := length_dropWhile_le2 (fun x => !isWsChar x) r
          exact ih (List.dropWhile (fun x => !isWsChar x) r) (by omega) t ht

theorem takeWhile_token (t r : List Char) (ht : ∀ c ∈ t, isWsChar c = false) :
    List.takeWhile (fun x => !isWsChar x) (t ++ r) =
      t ++ List.takeWhile (fun x => !isWsChar x) r := by
  induction t with
  | nil => rfl
  | cons a t2 ih =>
    rw [List.cons_append, List.takeWhile_cons]
    rw [if_pos (by simp [ht a (by simp)])]
    rw [ih fun c hc => ht c (by simp [hc])]
    rfl

theorem dropWhile_token (t r : List Char) (ht : ∀ c ∈ t, isWsChar c = false) :
    List.dropWhile (fun x => !isWsChar x) (t ++ r) =
      List.dropWhile (fun x => !isWsChar x) r := by
  induction t with
  | nil => rfl
  | cons a t2 ih =>
    rw [List.cons_append, List.dropWhile_cons]
    rw [if_pos (by simp [ht a (by simp)])]
    exact ih fun c hc => ht c (by simp [hc])

theorem takeWhile_all (t : List Char) (ht : ∀ c ∈ t, isWsChar c = false) :
    List.takeWhile (fun x => !isWsChar x) t = t := by
  induction t with
  | nil => rfl
  | cons a t2 ih =>
    rw [List.takeWhile_cons, if_pos (by simp [ht a (by simp)])]
    rw [ih fun c hc => ht c (by simp [hc])]

theorem dropWhile_all (t : List Char) (ht : ∀ c ∈ t, isWsChar c = false) :
    List.dropWhile (fun x => !isWsChar x) t = [] := by
  induction t with
  | nil => rfl
  | cons a t2 ih =>
    rw [List.dropWhile_cons, if_pos (by simp [ht a (by simp)])]
    exact ih fun c hc => ht c (by simp [hc])

theorem joinTokens_one (t : List Char) : joinTokens [t] = t := rfl

theorem splitWs_joinTokens : ∀ toks : List (List Char),
    (∀ t ∈ toks, t ≠ [] ∧ ∀ c ∈ t, isWsChar c = false) →
    splitWs (joinTokens toks) = toks := by
  intro toks
  induction toks with
  | nil => intro _; rfl
  | cons t ts ih =>
    intro hgood
    obtain ⟨htne, htc⟩ := hgood t (by simp)
    obtain ⟨c, t2, rfl⟩ := List.exists_cons_of_ne_nil htne
    have hc : isWsChar c = false := htc c (by simp)
    have ht2 : ∀ x ∈ t2, isWsChar x = false := fun x hx => htc x (by simp [hx])
    cases ts with
    | nil =>
      show splitWs (c :: t2) = [c :: t2]
      rw [splitWs_cons hc, takeWhile_all t2 ht2, dropWhile_all t2 ht2, splitWs_nil]
    | cons u us =>
      rw [joinTokens_cons2, List.cons_append, splitWs_cons hc]
      rw [show t2 ++ ' ' :: joinTokens (u :: us) = t2 ++ (' ' :: joinTokens (u :: us))
        from rfl]
      rw [takeWhile_token t2 _ ht2, dropWhile_token t2 _ ht2]
      rw [List.takeWhile_cons, if_neg (by decide)]
      rw [List.dropWhile_cons, if_neg (by decide)]
      rw [show splitWs (' ' :: joinTokens (u :: us)) = splitWs (joinTokens (u :: us))
        from splitWs_ws rfl]
      rw [ih fun x hx => hgood x (by simp [hx])]
      simp

theorem splitWs_dropWhile (l : List Char) :
    splitWs (List.dropWhile isWsChar l) = splitWs l := by
  induction l with
  | nil => rfl
  | cons c r ih =>
    by_cases hc : isWsChar c
    · rw [List.dropWhile_cons, if_pos (by simp [hc]), ih, splitWs_ws hc]
    · rw [List.dropWhile_cons, if_neg (by simp [hc])]

theorem cte_token_append (t r : List Char) (ht : ∀ c ∈ t, isWsChar c = false) :
    collapseTrimEnd (t ++ r) = t ++ collapseTrimEnd r := by
  induction t with
  | nil => rfl
  | cons a t2 ih =>
    rw [List.cons_append, cte_cons (ht a (by simp))]
    rw [ih fun c hc => ht c (by simp [hc])]
    rfl

theorem dropWhile_head_not {p : Char → Bool} {l : List Char} {x : Char} {xs : List Char}
    (h : List.dropWhile p l = x :: xs) : p x = false := by
  induction l with
  | nil => simp at h
  | cons c r ih =>
    rw [List.dropWhile_cons] at h
    split at h
    · exact ih h
    · rename_i hc
      injection h with h1 _
      rw [← h1]
      cases hpc : p c
      · rfl
      · exact absurd hpc (by simpa using hc)

theorem canon_aux : ∀ (n : Nat) (l : List Char), l.length ≤ n →
    collapseTrimEnd (List.dropWhile isWsChar l) = joinTokens (splitWs l) := by
  intro n
  induction n with
  | zero =>
    intro l hl
    have : l = [] := by
      cases l
      · rfl
      · simp at hl
    subst this
    rfl
  | succ n ih =>
    intro l hl
    cases l with
    | nil => rfl
    | cons c r =>
      simp only [List.length_cons] at hl
      by_cases hc : isWsChar c
      · rw [List.dropWhile_cons, if_pos (by simp [hc]), splitWs_ws hc]
        exact ih r (by omega)
      · rw [List.dropWhile_cons, if_neg (by simp [hc]), cte_cons (by simp [hc])]
        rw [splitWs_cons (by simp [hc] : isWsChar c = false)]
        have hsplit : r = List.takeWhile (fun x => !isWsChar x) r ++
            List.dropWhile (fun x => !isWsChar x) r :=
          (List.takeWhile_append_dropWhile _ _).symm
        have htw : ∀ x ∈ List.takeWhile (fun x => !isWsChar x) r, isWsChar x = false := by
          intro x hx
          have := List.mem_takeWhile_imp hx
          simpa using this
        conv_lhs => rw [hsplit]
        rw [cte_token_append _ _ htw]
        have hlendw := length_dropWhile_le2 (fun x => !isWsChar x) r
        cases hdw : List.dropWhile (fun x => !isWsChar x) r with
        | nil => simp [cte_nil, splitWs_nil, joinTokens_one]
        | cons w dw2 =>
          have hwws : isWsChar w = true := by
            have := dropWhile_head_not hdw
            simpa using this
          rw [cte_ws hwws, splitWs_ws hwws]
          have hlendd := length_dropWhile_le2 isWsChar dw2
          rw [← splitWs_dropWhile dw2]
          cases hdd : List.dropWhile isWsChar dw2 with
          | nil => simp [cte_nil, splitWs_nil, joinTokens_one]
          | cons d dd2 =>
            have hdns : isWsChar d = false := dropWhile_head_not hdd
            have hddlen : (d :: dd2).length ≤ n := by
              rw [← hdd]
              rw [hdw] at hlendw
              simp only [List.length_cons] at hlendw ⊢
              omega
            have hih := ih (d :: dd2) hddlen
            rw [show List.dropWhile isWsChar (d :: dd2) = d :: dd2 from
              dropWhile_ws_cons_not _ hdns] at hih
            rw [hih]
            rw [splitWs_cons hdns, joinTokens_cons2, ← splitWs_cons hdns]
            simp [List.append_assoc]

theorem canonWs_eq_reformat (l : List Char) : reformat_ws l = canonWs l := by
  rw [reformat_ws, canonWs, canon_aux l.length l (Nat.le_refl _)]

/-- C8 — whitespace normalization is idempotent, and its output is the
spec-side canonical form: every maximal whitespace run collapsed to a single
space, with no leading or trailing whitespace. -/
theorem c8_reformat_ws_idempotent_canonical :
    (∀ s : List Char, reformat_ws (reformat_ws s) = reformat_ws s) ∧
    (∀ s : List Char, reformat_ws s = canonWs s) := by
  constructor
  · intro s
    show joinTokens (splitWs (joinTokens (splitWs s))) = joinTokens (splitWs s)
    rw [splitWs_joinTokens (splitWs s) (splitWs_tokens s.length s (Nat.le_refl _))]
  · exact canonWs_eq_reformat

/-! ## Price parsing failure modes (claim C10) -/

theorem mem_of_mem_dropWhile {p : Char → Bool} {l : List Char} {x : Char}
    (h : x ∈ List.dropWhile p l) : x ∈ l := by
  rw [show l = List.takeWhile p l ++ List.dropWhile p l from
    (List.takeWhile_append_dropWhile p l).symm]
  exact List.mem_append.2 (Or.inr h)

theorem wsEuroPair_cons_of {c : Char} {t : List Char} (h : wsEuroPair t = true) :
    wsEuroPair (c :: t) = true := by
  cases t with
  | nil => simp [wsEuroPair] at h
  | cons b r =>
    simp only [wsEuroPair, Bool.or_eq_true]
    exact Or.inr h

theorem wsEuroPair_of_decomp : ∀ (pre : List Char) (w : Char) (rest : List Char),
    isWsChar w = true → wsEuroPair (pre ++ w :: '€' :: rest) = true := by
  intro pre
  induction pre with
  | nil =>
    intro w rest hw
    simp [wsEuroPair, hw]
  | cons c pre2 ih =>
    intro w rest hw
    rw [List.cons_append]
    exact wsEuroPair_cons_of (ih w rest hw)

theorem tryPriceAt_euro_mem {l : List Char} {g : List Char}
    (h : tryPriceAt l = some g) : '€' ∈ l := by
  simp only [tryPriceAt] at h
  split at h
  case _ => exact absurd h (by simp)
  case _ a r hD =>
    split at h
    case _ =>
      split at h
      case _ heu =>
        have : '€' ∈ List.dropWhile isDigitOrWs r := by
          rw [heu]
          simp
        have h2 : '€' ∈ r := mem_of_mem_dropWhile this
        have h3 : '€' ∈ List.dropWhile isWsChar l := by
          rw [hD]
          simp [h2]
        exact mem_of_mem_dropWhile h3
      case _ => exact absurd h (by simp)
    case _ => exact absurd h (by simp)

theorem tryPriceAt_wsEuro {l : List Char} {g : List Char}
    (h : tryPriceAt l = some g) : wsEuroPair l = true := by
  simp only [tryPriceAt] at h
  split at h
  case _ => exact absurd h (by simp)
  case _ a r hD =>
    split at h
    case _ hda =>
      split at h
      case _ heu =>
        split at h
        case _ lastc hlast =>
          split at h
          case _ hlws =>
            have hrun : List.takeWhile isDigitOrWs r =
                (List.takeWhile isDigitOrWs r).dropLast ++ [lastc] :=
              (List.dropLast_append_getLast? _ hlast).symm
            have hr : r = (List.takeWhile isDigitOrWs r).dropLast ++
                lastc :: '€' :: (List.dropWhile isDigitOrWs r).tail := by
              conv_lhs => rw [← List.takeWhile_append_dropWhile isDigitOrWs r]
              rw [heu]
              conv_lhs => rw [hrun]
              simp [List.append_assoc]
            have hl : l = (List.takeWhile isWsChar l ++ [a] ++
                (List.takeWhile isDigitOrWs r).dropLast) ++
                lastc :: '€' :: (List.dropWhile isDigitOrWs r).tail := by
              conv_lhs => rw [← List.takeWhile_append_dropWhile isWsChar l]
              rw [hD]
              conv_lhs => rw [hr]
              simp [List.append_assoc]
            rw [hl]
            exact wsEuroPair_of_decomp _ lastc _ hlws
          case _ => exact absurd h (by simp)
        case _ => exact absurd h (by simp)
      case _ => exact absurd h (by simp)
    case _ => exact absurd h (by simp)

theorem priceFind_some_ex {l : List Char} {g : List Char}
    (h : priceFind l = some g) : ∃ pre suf, l = pre ++ suf ∧ tryPriceAt suf = some g := by
  induction l with
  | nil => simp [priceFind] at h
  | cons c r ih =>
    rw [priceFind] at h
    cases ht : tryPriceAt (c :: r) with
    | some y =>
      rw [ht] at h
      exact ⟨[], c :: r, rfl, by rw [ht]; exact h⟩
    | none =>
      rw [ht] at h
      obtain ⟨pre, suf, rfl, hsuf⟩ := ih h
      exact ⟨c :: pre, suf, rfl, hsuf⟩

theorem priceFind_euro_mem {l g : List Char} (h : priceFind l = some g) : '€' ∈ l := by
  obtain ⟨pre, suf, rfl, hsuf⟩ := priceFind_some_ex h
  exact List.mem_append.2 (Or.inr (tryPriceAt_euro_mem hsuf))

theorem wsEuroPair_append_of {pre suf : List Char} (h : wsEuroPair suf = true) :
    wsEuroPair (pre ++ suf) = true := by
  induction pre with
  | nil => exact h
  | cons c pre2 ih =>
    rw [List.cons_append]
    exact wsEuroPair_cons_of ih

theorem priceFind_wsEuro {l g : List Char} (h : priceFind l = some g) :
    wsEuroPair l = true := by
  obtain ⟨pre, suf, rfl, hsuf⟩ := priceFind_some_ex h
  exact wsEuroPair_append_of (tryPriceAt_wsEuro hsuf)

/-- C10 — `price_parse` succeeds only on inputs containing a digit group,
whitespace, and the literal euro sign: every successful parse carries the
unit `€`; an input with no `€` at all, or with no whitespace character
immediately before any `€` (such as `1599€`), fails with `InvalidPrice`
carrying the raw input. -/
theorem c10_price_failure_modes :
    (∀ (l : List Char) (pr : Price), price_parse l = .ok pr → pr.unit = "€".data) ∧
    (∀ l : List Char, '€' ∉ l → price_parse l = .error (.invalidPrice l)) ∧
    (∀ l : List Char, wsEuroPair l = false → price_parse l = .error (.invalidPrice l)) ∧
    price_parse "1599€".data = .error (.invalidPrice "1599€".data) := by
  refine ⟨?_, ?_, ?_, by decide⟩
  · intro l pr h
    simp only [price_parse] at h
    split at h
    case _ g hfind =>
      split at h
      · injection h with h2
        rw [← h2]
      · exact absurd h (by simp)
    case _ => exact absurd h (by simp)
  · intro l hmem
    simp only [price_parse]
    split
    case _ g hfind => exact absurd (priceFind_euro_mem hfind) hmem
    case _ => rfl
  · intro l hpair
    simp only [price_parse]
    split
    case _ g hfind =>
      rw [priceFind_wsEuro hfind] at hpair
      exact absurd hpair (by simp)
    case _ => rfl


/-! ## Document extraction: C3, C5, C6 -/

theorem parseItem_error_idx {tz : Timezone} {p : Parser} {i : Nat} {el : ListingNode}
    {e : ItemParseError} (h : parseItem tz p i el = .error e) : e.item_idx = i := by
  simp only [parseItem] at h
  split at h
  · injection h with h2
    rw [← h2]
  · split at h
    · injection h with h2
      rw [← h2]
    · exact absurd h (by simp)

theorem extractId_ok {el : ListingNode} {s : List Char}
    (h : extractId el = .ok s) : el.idAttr = some ("item_".data ++ s) := by
  simp only [extractId] at h
  split at h
  · exact absurd h (by simp)
  rename_i raw hraw
  split at h
  · rename_i htag
    injection h with h2
    rw [hraw, ← h2]
    have htag2 : "item_".data = List.take 5 raw := htag.symm
    rw [htag2, List.take_append_drop]
  · exact absurd h (by simp)

theorem price_step_ok {el : ListingNode} {po : Option Price}
    (h : price_step el = .ok po) :
    (po = none ↔ el.priceText = none ∨ el.priceText = some []) ∧
    (∀ s, el.priceText = some s → s ≠ [] →
      ∃ pr, price_parse s = .ok pr ∧ po = some pr) := by
  cases hpt : el.priceText with
  | none =>
    simp only [price_step, hpt] at h
    injection h with h2
    refine ⟨by simp [← h2], ?_⟩
    intro s hs
    exact Option.noConfusion hs
  | some s0 =>
    cases s0 with
    | nil =>
      simp only [price_step, hpt, List.isEmpty_nil, if_true] at h
      injection h with h2
      refine ⟨by simp [← h2], ?_⟩
      intro s hs hne
      injection hs with hs2
      exact absurd hs2.symm hne
    | cons c t =>
      simp only [price_step, hpt, List.isEmpty_cons, Bool.false_eq_true, if_false] at h
      split at h
      · rename_i pr hpp
        injection h with h2
        refine ⟨by simp [← h2], ?_⟩
        intro s hs hne
        injection hs with hs2
        subst hs2
        exact ⟨pr, hpp, h2.symm⟩
      · exact absurd h (by simp)

theorem extractRest_price {tz : Timezone} {p : Parser} {el : ListingNode}
    {t : Bool × List Char × Option Price × Option (List Char) × List Char ×
      List Char × Int × List Char × List Char × Option (List Char)}
    (h : extractRest tz p el = .ok t) : price_step el = .ok t.2.2.1 := by
  simp only [extractRest] at h
  split at h
  · exact absurd h (by simp)
  split at h
  · exact absurd h (by simp)
  split at h
  · exact absurd h (by simp)
  split at h
  · exact absurd h (by simp)
  rename_i price hps
  split at h
  · exact absurd h (by simp)
  split at h
  · exact absurd h (by simp)
  split at h
  · exact absurd h (by simp)
  split at h
  · exact absurd h (by simp)
  · exact absurd h (by simp)
  · injection h with h2
    rw [hps, ← h2]

theorem parseItem_ok_parts {tz : Timezone} {p : Parser} {i : Nat} {el : ListingNode}
    {it : Item} (h : parseItem tz p i el = .ok it) :
    el.idAttr = some ("item_".data ++ it.item_id) ∧ price_step el = .ok it.price := by
  simp only [parseItem] at h
  split at h
  · exact absurd h (by simp)
  rename_i itemId hid
  split at h
  · exact absurd h (by simp)
  rename_i isCompany href price thumb title postedOrig postedAt loc dir seller hrest
  injection h with h2
  constructor
  · rw [← h2]
    exact extractId_ok hid
  · rw [← h2]
    exact extractRest_price hrest

theorem parseRows_ok_forall {tz : Timezone} {p : Parser} :
    ∀ {rows : List ListingNode} {i : Nat} {items : List Item},
    parseRows tz p i rows = .ok items →
    List.Forall₂ (fun el it => ∃ k, parseItem tz p k el = Except.ok it) rows items := by
  intro rows
  induction rows with
  | nil =>
    intro i items h
    simp only [parseRows] at h
    injection h with h2
    rw [← h2]
    exact List.Forall₂.nil
  | cons el rest ih =>
    intro i items h
    simp only [parseRows] at h
    split at h
    · exact absurd h (by simp)
    rename_i it hit
    split at h
    · exact absurd h (by simp)
    rename_i its hits
    injection h with h2
    rw [← h2]
    exact List.Forall₂.cons ⟨i, hit⟩ (ih hits)

theorem parseRows_spec (tz : Timezone) (p : Parser) :
    ∀ (rows : List ListingNode) (i : Nat),
    (∃ items, parseRows tz p i rows = .ok items ∧
      List.Forall₂ (fun pr it => parseItem tz p pr.1 pr.2 = Except.ok it)
        (List.enumFrom i rows) items) ∨
    (∃ e el, parseRows tz p i rows = .error e ∧ i ≤ e.item_idx ∧
      rows.get? (e.item_idx - i) = some el ∧
      parseItem tz p e.item_idx el = .error e ∧
      ∀ j, i ≤ j → j < e.item_idx →
        ∃ el2 it, rows.get? (j - i) = some el2 ∧ parseItem tz p j el2 = Except.ok it) := by
  intro rows
  induction rows with
  | nil =>
    intro i
    left
    exact ⟨[], rfl, List.Forall₂.nil⟩
  | cons el rest ih =>
    intro i
    cases hpi : parseItem tz p i el with
    | error e =>
      right
      have hidx : e.item_idx = i := parseItem_error_idx hpi
      refine ⟨e, el, ?_, ?_, ?_, ?_, ?_⟩
      · simp only [parseRows, hpi]
      · rw [hidx]
      · rw [hidx]
        simp
      · rw [hidx]
        exact hpi
      · intro j hij hji
        rw [hidx] at hji
        omega
    | ok it =>
      rcases ih (i + 1) with ⟨items, hok, hfa⟩ | ⟨e, el2, herr, hle, hget, hpe, hprev⟩
      · left
        refine ⟨it :: items, ?_, List.Forall₂.cons hpi hfa⟩
        simp only [parseRows, hpi, hok]
      · right
        refine ⟨e, el2, ?_, by omega, ?_, hpe, ?_⟩
        · simp only [parseRows, hpi, herr]
        · rw [show e.item_idx - i = (e.item_idx - (i + 1)) + 1 from by omega]
          simpa using hget
        · intro j hij hji
          by_cases hj : j = i
          · subst hj
            exact ⟨el, it, by simp, hpi⟩
          · obtain ⟨el3, it3, hg, hp⟩ := hprev j (by omega) hji
            refine ⟨el3, it3, ?_, hp⟩
            rw [show j - i = (j - (i + 1)) + 1 from by omega]
            simpa using hg

/-- C3: `parse_document` is all-or-nothing.  Either it returns one Item per
matched listing node in document order — every node extracts successfully,
witnessed position by position over the enumerated node list — or it returns
a single error whose `item_idx` is the zero-based position of the first
failing node: that node fails, and every node before it extracts
successfully.  No partial list is ever returned. -/
theorem c3_parse_document_all_or_nothing (tz : Timezone) (p : Parser) (doc : HtmlDoc) :
    (∃ items, parse_document tz p doc = .ok items ∧
      items.length = doc.rows.length ∧
      List.Forall₂ (fun pr it => parseItem tz p pr.1 pr.2 = Except.ok it)
        doc.rows.enum items) ∨
    (∃ e el, parse_document tz p doc = .error e ∧
      doc.rows.get? e.item_idx = some el ∧
      parseItem tz p e.item_idx el = .error e ∧
      ∀ j, j < e.item_idx →
        ∃ el2 it, doc.rows.get? j = some el2 ∧ parseItem tz p j el2 = Except.ok it) := by
  rcases parseRows_spec tz p doc.rows 0 with ⟨items, hok, hfa⟩ |
    ⟨e, el, herr, _, hget, hpe, hprev⟩
  · left
    refine ⟨items, hok, ?_, hfa⟩
    rw [← List.Forall₂.length_eq hfa]
    exact List.enum_length
  · right
    refine ⟨e, el, herr, ?_, hpe, ?_⟩
    · simpa using hget
    · intro j hj
      obtain ⟨el2, it, hg, hp⟩ := hprev j (Nat.zero_le j) hj
      exact ⟨el2, it, by simpa using hg, hp⟩

/-- C6 (amended): when `parse_document` succeeds, each returned Item's
`item_id` is the node's identifier attribute with the `item_` tag stripped —
but nothing prevents it from being empty: the attribute value `item_`
strips to the empty string and extraction still succeeds. -/
theorem c6_item_id_extraction (tz : Timezone) (p : Parser) (doc : HtmlDoc)
    (items : List Item) (h : parse_document tz p doc = .ok items) :
    List.Forall₂ (fun el it => el.idAttr = some ("item_".data ++ it.item_id))
      doc.rows items := by
  have h2 : parseRows tz p 0 doc.rows = Except.ok items := h
  refine List.Forall₂.imp ?_ (parseRows_ok_forall h2)
  intro el it hex
  obtain ⟨k, hk⟩ := hex
  exact (parseItem_ok_parts hk).1

theorem c6_witness :
    List.Forall₂ (fun el it => el.idAttr = some ("item_".data ++ it.item_id))
      [goodRow] [itemG] :=
  c6_item_id_extraction helsinkiTz p2023 ⟨[goodRow]⟩ [itemG] (by decide)

theorem c6_counterexample :
    emptyIdRow.idAttr = some "item_".data ∧
    parse_document helsinkiTz p2023 ⟨[emptyIdRow]⟩ = .ok [item6] ∧
    item6.item_id = [] := by decide

/-- C5 (amended): when `parse_document` succeeds, a returned Item's `price`
is `None` exactly when the listing has no price text node OR its price text
is the empty string; a present non-empty price text must have parsed
successfully.  An empty price text therefore yields `price = None` without
error, contrary to the claim. -/
theorem c5_price_resolution (tz : Timezone) (p : Parser) (doc : HtmlDoc)
    (items : List Item) (h : parse_document tz p doc = .ok items) :
    List.Forall₂ (fun el it =>
      (it.price = none ↔ el.priceText = none ∨ el.priceText = some []) ∧
      ∀ s, el.priceText = some s → s ≠ [] →
        ∃ pr, price_parse s = .ok pr ∧ it.price = some pr)
      doc.rows items := by
  have h2 : parseRows tz p 0 doc.rows = Except.ok items := h
  refine List.Forall₂.imp ?_ (parseRows_ok_forall h2)
  intro el it hex
  obtain ⟨k, hk⟩ := hex
  exact price_step_ok (parseItem_ok_parts hk).2

theorem c5_witness :
    List.Forall₂ (fun el it =>
      (it.price = none ↔ el.priceText = none ∨ el.priceText = some []) ∧
      ∀ s, el.priceText = some s → s ≠ [] →
        ∃ pr, price_parse s = .ok pr ∧ it.price = some pr)
      [emptyPriceRow] [item5] :=
  c5_price_resolution helsinkiTz p2023 ⟨[emptyPriceRow]⟩ [item5] (by decide)

theorem c5_counterexample :
    emptyPriceRow.priceText = some [] ∧
    parse_document helsinkiTz p2023 ⟨[emptyPriceRow]⟩ = .ok [item5] ∧
    item5.price = none := by decide


/-! ## C9: `InvalidHighlevelStructure` exactly when neither pattern matches -/

theorem parse_hh_mm_cases (l : List Char) :
    (∃ v, parse_hh_mm l = .ok v) ∨ parse_hh_mm l = .error (.invalidTime l) := by
  simp only [parse_hh_mm]
  repeat' split
  all_goals first
    | (left; exact ⟨_, rfl⟩)
    | (right; rfl)

theorem parse_day_cases (l : List Char) :
    (∃ v, parse_day l = .ok v) ∨ parse_day l = .error (.invalidDay l) := by
  simp only [parse_day]
  repeat' split
  all_goals first
    | (left; exact ⟨_, rfl⟩)
    | (right; rfl)

theorem parse_month_cases (l : List Char) :
    (∃ v, parse_month_short l = .ok v) ∨
      parse_month_short l = .error (.invalidMonth l) := by
  simp only [parse_month_short]
  by_cases h1 : List.map toLowerAscii l = ['t', 'a', 'm']
  · rw [if_pos h1]
    left
    exact ⟨_, rfl⟩
  rw [if_neg h1]
  by_cases h2 : List.map toLowerAscii l = ['h', 'e', 'l']
  · rw [if_pos h2]
    left
    exact ⟨_, rfl⟩
  rw [if_neg h2]
  by_cases h3 : List.map toLowerAscii l = ['m', 'a', 'a']
  · rw [if_pos h3]
    left
    exact ⟨_, rfl⟩
  rw [if_neg h3]
  by_cases h4 : List.map toLowerAscii l = ['h', 'u', 'h']
  · rw [if_pos h4]
    left
    exact ⟨_, rfl⟩
  rw [if_neg h4]
  by_cases h5 : List.map toLowerAscii l = ['t', 'o', 'u']
  · rw [if_pos h5]
    left
    exact ⟨_, rfl⟩
  rw [if_neg h5]
  by_cases h6 : List.map toLowerAscii l = ['k', 'e', 's']
  · rw [if_pos h6]
    left
    exact ⟨_, rfl⟩
  rw [if_neg h6]
  by_cases h7 : List.map toLowerAscii l = ['h', 'e', 'i']
  · rw [if_pos h7]
    left
    exact ⟨_, rfl⟩
  rw [if_neg h7]
  by_cases h8 : List.map toLowerAscii l = ['e', 'l', 'o']
  · rw [if_pos h8]
    left
    exact ⟨_, rfl⟩
  rw [if_neg h8]
  by_cases h9 : List.map toLowerAscii l = ['s', 'y', 'y']
  · rw [if_pos h9]
    left
    exact ⟨_, rfl⟩
  rw [if_neg h9]
  by_cases h10 : List.map toLowerAscii l = ['l', 'o', 'k']
  · rw [if_pos h10]
    left
    exact ⟨_, rfl⟩
  rw [if_neg h10]
  by_cases h11 : List.map toLowerAscii l = ['m', 'a', 'r']
  · rw [if_pos h11]
    left
    exact ⟨_, rfl⟩
  rw [if_neg h11]
  by_cases h12 : List.map toLowerAscii l = ['j', 'o', 'u']
  · rw [if_pos h12]
    left
    exact ⟨_, rfl⟩
  rw [if_neg h12]
  right
  rfl

theorem localToUtcRes_not_ihs (tz : Timezone) (n : NaiveDT) (t : List Char) :
    localToUtcRes tz n ≠ .error (.invalidHighlevelStructure t) := by
  intro h
  simp only [localToUtcRes] at h
  split at h
  · exact Except.noConfusion h
  · injection h with h2
    exact DateParseError.noConfusion h2

theorem parse_rel_time_not_ihs (tz : Timezone) (p : Parser) (relday hhmm t : List Char) :
    parse_rel_time tz p relday hhmm ≠ .error (.invalidHighlevelStructure t) := by
  intro h
  simp only [parse_rel_time] at h
  split at h
  · rename_i e he
    rcases parse_hh_mm_cases hhmm with ⟨v, hv⟩ | herr
    · rw [hv] at he
      exact Except.noConfusion he
    · rw [herr] at he
      injection he with he2
      rw [← he2] at h
      injection h with h3
      exact DateParseError.noConfusion h3
  · split at h
    · exact localToUtcRes_not_ihs _ _ _ h
    · split at h
      · exact localToUtcRes_not_ihs _ _ _ h
      · injection h with h3
        exact DateParseError.noConfusion h3

theorem parse_abs_time_not_ihs (tz : Timezone) (p : Parser) (ds ms hs t : List Char) :
    parse_abs_time tz p ds ms hs ≠ .error (.invalidHighlevelStructure t) := by
  intro h
  simp only [parse_abs_time] at h
  split at h
  · rename_i e he
    rcases parse_day_cases ds with ⟨v, hv⟩ | herr
    · rw [hv] at he
      exact Except.noConfusion he
    · rw [herr] at he
      injection he with he2
      rw [← he2] at h
      injection h with h3
      exact DateParseError.noConfusion h3
  · split at h
    · rename_i e he
      rcases parse_month_cases ms with ⟨v, hv⟩ | herr
      · rw [hv] at he
        exact Except.noConfusion he
      · rw [herr] at he
        injection he with he2
        rw [← he2] at h
        injection h with h3
        exact DateParseError.noConfusion h3
    · split at h
      · rename_i e he
        rcases parse_hh_mm_cases hs with ⟨v, hv⟩ | herr
        · rw [hv] at he
          exact Except.noConfusion he
        · rw [herr] at he
          injection he with he2
          rw [← he2] at h
          injection h with h3
          exact DateParseError.noConfusion h3
      · split at h
        · split at h
          · exact Except.noConfusion h
          · injection h with h3
            exact DateParseError.noConfusion h3
        · injection h with h3
          exact DateParseError.noConfusion h3

/-- C9: `parse_posted_at` fails with `InvalidHighlevelStructure` — always
carrying the raw input — exactly when neither the relative pattern nor the
absolute pattern matches anywhere in the input as a substring (both scanners
try every start position).  Because the patterns are unanchored, an input
embedding a well-formed timestamp in arbitrary surrounding text, such as
`xx tänään 01:23 yy`, is accepted and resolved. -/
theorem c9_ihs_iff_no_pattern_match :
    (∀ (tz : Timezone) (p : Parser) (s t : List Char),
      parse_posted_at tz p s = .error (.invalidHighlevelStructure t) →
        t = s ∧ ¬RelMatch s ∧ ¬AbsMatch s) ∧
    (∀ (tz : Timezone) (p : Parser) (s : List Char),
      ¬RelMatch s → ¬AbsMatch s →
      parse_posted_at tz p s = .error (.invalidHighlevelStructure s)) ∧
    (∃ v, parse_posted_at helsinkiTz p2023 "xx tänään 01:23 yy".data = .ok v ∧
      v = instantOf ⟨⟨⟨2023, 3, 25⟩, 4980⟩, 7200⟩) := by
  refine ⟨?_, ?_, ?_⟩
  · intro tz p s t h
    simp only [parse_posted_at] at h
    split at h
    · exact absurd h (parse_rel_time_not_ihs _ _ _ _ _)
    · rename_i hrel
      split at h
      · exact absurd h (parse_abs_time_not_ihs _ _ _ _ _ _)
      · rename_i habs
        injection h with h2
        injection h2 with h3
        exact ⟨h3.symm, relFind_eq_none_iff.mp hrel, absFind_eq_none_iff.mp habs⟩
  · intro tz p s hr ha
    simp only [parse_posted_at, relFind_eq_none_iff.mpr hr, absFind_eq_none_iff.mpr ha]
  · exact ⟨instantOf ⟨⟨⟨2023, 3, 25⟩, 4980⟩, 7200⟩, by decide, rfl⟩

end Tori
